import Mathlib

/-!
Verification of the LaTeX-to-OMML converter
(`src/skills/docx-template-replacer/scripts/md_to_docx_converter.py`,
class `LatexToOmmlConverter`).

The Python code builds `xml.etree.ElementTree` elements in place; here an
element is a value of the inductive type `Xml` (tag, attributes in insertion
order, optional text, children in insertion order), and `_parse_expr(parent,
expr)` becomes a function returning the list of children it would append to
`parent`.  Recursion is modelled with explicit fuel (`parse_exprF`); the
statement that one unit of fuel per input character always suffices is
exactly the termination argument of the Python recursion.  Python `str.strip`
is modelled on the ASCII whitespace characters, and each `re.match` pattern
used by the source is modelled by a hand-written matcher over `List Char`
(every pattern in the source is deterministic: each greedy or lazy class is
bounded by a character that the class excludes, so no backtracking can
produce a different match).
-/

/-- Characters treated as whitespace by Python `str.strip` / `\s` (ASCII part). -/
def pyIsSpace (c : Char) : Bool :=
  c = ' ' || c = '\t' || c = '\n' || c = '\r' || c = '\x0b' || c = '\x0c'

/-- Python `str.strip()`: drop leading and trailing whitespace. -/
def pyStrip (l : List Char) : List Char :=
  ((l.dropWhile pyIsSpace).reverse.dropWhile pyIsSpace).reverse

/-- Split at the first occurrence of character `c`: `some (before, after)`,
`c` itself removed.  Models the regex fragment `([^c]*)c` (first occurrence). -/
def splitFirst? (c : Char) : List Char → Option (List Char × List Char)
  | [] => none
  | x :: xs =>
      if x = c then some ([], xs)
      else (splitFirst? c xs).map (fun p => (x :: p.1, p.2))

/-- Split at the first occurrence of the (nonempty) pattern `pat`:
`some (before, after)`, the pattern itself removed.  Models a lazy `(.*?)pat`. -/
def splitFirstSub? (pat : List Char) : List Char → Option (List Char × List Char)
  | [] => none
  | x :: xs =>
      if pat.isPrefixOf (x :: xs) then some ([], (x :: xs).drop pat.length)
      else (splitFirstSub? pat xs).map (fun p => (x :: p.1, p.2))

/-- Python `pat in s` (substring containment) for a nonempty pattern. -/
def containsSub (pat l : List Char) : Bool :=
  (splitFirstSub? pat l).isSome

/-- Python `s.split(c)` for a one-character separator. -/
def splitOnChar (c : Char) : List Char → List (List Char)
  | [] => [[]]
  | x :: xs =>
      if x = c then [] :: splitOnChar c xs
      else
        match splitOnChar c xs with
        | [] => [[x]]
        | h :: t => (x :: h) :: t

/-- Python `s.split('\\\\')`: split on the two-character row separator. -/
def splitRowSep : List Char → List (List Char)
  | [] => [[]]
  | '\\' :: '\\' :: rest => [] :: splitRowSep rest
  | x :: xs =>
      match splitRowSep xs with
      | [] => [[x]]
      | h :: t => (x :: h) :: t

/-! ## The element model -/

/-- An `xml.etree.ElementTree` element: tag, attributes (insertion order),
optional `.text`, children (insertion order). -/
inductive Xml where
  | elem (tag : String) (attrs : List (String × String)) (txt : Option String)
      (children : List Xml)

/-- The `w:rFonts` element produced with Cambria Math fonts and a hint. -/
def cambriaFonts (hint : String) : Xml :=
  .elem "w:rFonts"
    [("w:hint", hint), ("w:ascii", "Cambria Math"), ("w:hAnsi", "Cambria Math")] none []

/-- `LatexToOmmlConverter._ctrl_pr`: the control-properties marker element. -/
def ctrl_pr : Xml :=
  .elem "m:ctrlPr" [] none [.elem "w:rPr" [] none [cambriaFonts "eastAsia"]]

/-- `LatexToOmmlConverter._math_run`: a literal `m:r` run with a font hint. -/
def math_run (text hint : String) : Xml :=
  .elem "m:r" [] none
    [.elem "m:rPr" [] none [.elem "m:sty" [("m:val", "p")] none []],
     .elem "w:rPr" [] none [cambriaFonts hint],
     .elem "m:t" [] (some text) []]

/-- The `m:dPr` delimiter properties: open glyph, close glyph, marker. -/
def dPrElem (b e : String) : Xml :=
  .elem "m:dPr" [] none
    [.elem "m:begChr" [("m:val", b)] none [],
     .elem "m:endChr" [("m:val", e)] none [], ctrl_pr]

/-- An `m:e` slot: content followed by the control-properties marker. -/
def eElem (content : List Xml) : Xml :=
  .elem "m:e" [] none (content ++ [ctrl_pr])

/-- An `m:d` delimited group: properties, one `m:e` slot, trailing marker. -/
def dElem (b e : String) (inner : List Xml) : Xml :=
  .elem "m:d" [] none [dPrElem b e, eElem inner, ctrl_pr]

/-- The fixed `m:mPr` matrix properties: exactly one column definition
(`m:count` = 1, `m:mcJc` = center), `m:plcHide`, trailing marker. -/
def mPrElem : Xml :=
  .elem "m:mPr" [] none
    [.elem "m:mcs" [] none
       [.elem "m:mc" [] none
          [.elem "m:mcPr" [] none
             [.elem "m:count" [("m:val", "1")] none [],
              .elem "m:mcJc" [("m:val", "center")] none []]]],
     .elem "m:plcHide" [("m:val", "1")] none [],
     ctrl_pr]

/-- An `m:m` matrix node: the fixed properties followed by the rows. -/
def mElem (rows : List Xml) : Xml :=
  .elem "m:m" [] none (mPrElem :: rows)

/-- An `m:mr` matrix row holding its cells. -/
def mrElem (cells : List Xml) : Xml :=
  .elem "m:mr" [] none cells

/-- An `m:f` fraction node.  Note: the source appends the fraction's own
control-properties marker to the PARENT, not to the `m:f` element, so `m:f`
ends with `m:den`. -/
def fElem (num den : List Xml) : Xml :=
  .elem "m:f" [] none
    [.elem "m:fPr" [] none [ctrl_pr],
     .elem "m:num" [] none (num ++ [ctrl_pr]),
     .elem "m:den" [] none (den ++ [ctrl_pr])]

/-! ## The Greek symbol table -/

/-- `LatexToOmmlConverter.greek_map`, in source order. -/
def greek_map : List (String × String) :=
  [("alpha", "α"), ("beta", "β"), ("gamma", "γ"), ("delta", "δ"),
   ("epsilon", "ε"), ("zeta", "ζ"), ("eta", "η"), ("theta", "θ"),
   ("iota", "ι"), ("kappa", "κ"), ("lambda", "λ"), ("mu", "μ"),
   ("nu", "ν"), ("xi", "ξ"), ("pi", "π"), ("rho", "ρ"),
   ("sigma", "σ"), ("tau", "τ"), ("upsilon", "υ"), ("phi", "φ"),
   ("chi", "χ"), ("psi", "ψ"), ("omega", "ω"),
   ("Gamma", "Γ"), ("Delta", "Δ"), ("Theta", "Θ"), ("Lambda", "Λ"),
   ("Xi", "Ξ"), ("Pi", "Π"), ("Sigma", "Σ"), ("Phi", "Φ"),
   ("Psi", "Ψ"), ("Omega", "Ω")]

/-- Python `name in greek_map` / `greek_map[name]` as one exact lookup. -/
def greekLookup (s : String) : Option String :=
  (greek_map.find? (fun p => p.1 == s)).map Prod.snd

/-- The glyph-resolution rule repeated inline by the source for each base,
subscript and superscript capture of the script recognizers. -/
def resolve_run (s : String) : Xml :=
  match greekLookup s with
  | some g => math_run g "eastAsia"
  | none => math_run s "default"

/-- One argument slot of a script node: resolved run plus marker. -/
def scriptPart (tag : String) (s : String) : Xml :=
  .elem tag [] none [resolve_run s, ctrl_pr]

/-- An `m:sSubSup` node as built by the combined sub+sup branch. -/
def sSubSupElem (b sb sp : String) : Xml :=
  .elem "m:sSubSup" [] none
    [.elem "m:sSubSupPr" [] none [ctrl_pr],
     scriptPart "m:e" b, scriptPart "m:sub" sb, scriptPart "m:sup" sp, ctrl_pr]

/-- An `m:sSub` node as built by the subscript branch. -/
def sSubElem (b sb : String) : Xml :=
  .elem "m:sSub" [] none
    [.elem "m:sSubPr" [] none [ctrl_pr],
     scriptPart "m:e" b, scriptPart "m:sub" sb, ctrl_pr]

/-- An `m:sSup` node as built by the superscript branch. -/
def sSupElem (b sp : String) : Xml :=
  .elem "m:sSup" [] none
    [.elem "m:sSupPr" [] none [ctrl_pr],
     scriptPart "m:e" b, scriptPart "m:sup" sp, ctrl_pr]

/-! ## Recognizer matchers (one per `re.match` pattern of the source) -/

/-- The function-macro alternation `(cos|sin|tan|log|ln|exp)`, in source order. -/
def funcNames : List String := ["cos", "sin", "tan", "log", "ln", "exp"]

/-- Recognizer 1: `\\(cos|sin|tan|log|ln|exp)\s*\(([^)]+)\)`. -/
def func_paren_match? (expr : List Char) : Option (String × List Char × List Char) :=
  match expr with
  | [] => none
  | x :: tl =>
      if x = '\\' then
        match funcNames.find? (fun n => n.toList.isPrefixOf tl) with
        | some name =>
            match (tl.drop name.length).dropWhile pyIsSpace with
            | [] => none
            | y :: tl2 =>
                if y = '(' then
                  match splitFirst? ')' tl2 with
                  | some (inner, rest) => if inner = [] then none else some (name, inner, rest)
                  | none => none
                else none
        | none => none
      else none

/-- Recognizer 2: `\(([^)]+)\)`. -/
def paren_match? (expr : List Char) : Option (List Char × List Char) :=
  match expr with
  | [] => none
  | x :: tl =>
      if x = '(' then
        match splitFirst? ')' tl with
        | some (inner, rest) => if inner = [] then none else some (inner, rest)
        | none => none
      else none

/-- Recognizer 3: `\\begin\{bmatrix\}(.*?)\\end\{bmatrix\}` (DOTALL, lazy). -/
def matrix_match? (expr : List Char) : Option (List Char × List Char) :=
  if ("\\begin{bmatrix}".toList).isPrefixOf expr then
    splitFirstSub? ("\\end{bmatrix}".toList) (expr.drop ("\\begin{bmatrix}".toList).length)
  else none

/-- Recognizer 4: `\\begin\{cases\}(.*?)\\end\{cases\}` (DOTALL, lazy). -/
def cases_match? (expr : List Char) : Option (List Char × List Char) :=
  if ("\\begin{cases}".toList).isPrefixOf expr then
    splitFirstSub? ("\\end{cases}".toList) (expr.drop ("\\begin{cases}".toList).length)
  else none

/-- Recognizer 5: `\\frac\{([^}]+)\}\{([^}]+)\}`. -/
def frac_match? (expr : List Char) : Option (List Char × List Char × List Char) :=
  if ("\\frac".toList ++ ['{']).isPrefixOf expr then
    match splitFirst? '}' (expr.drop 6) with
    | some (g1, r1) =>
        if g1 = [] then none
        else
          match r1 with
          | [] => none
          | y :: r2 =>
              if y = '{' then
                match splitFirst? '}' r2 with
                | some (g2, r3) => if g2 = [] then none else some (g1, g2, r3)
                | none => none
              else none
    | none => none
  else none

/-- The fragment `\\([a-zA-Z]+)`: a backslash and a maximal letter run. -/
def macroName? (l : List Char) : Option (List Char × List Char) :=
  match l with
  | [] => none
  | x :: tl =>
      if x = '\\' then
        if tl.takeWhile Char.isAlpha = [] then none
        else some (tl.takeWhile Char.isAlpha, tl.dropWhile Char.isAlpha)
      else none

/-- The fragment `\{([^}]+)\}`: a braced nonempty group up to the first `}`. -/
def braceArg? (l : List Char) : Option (List Char × List Char) :=
  match l with
  | [] => none
  | x :: tl =>
      if x = '{' then
        match splitFirst? '}' tl with
        | some (g, r) => if g = [] then none else some (g, r)
        | none => none
      else none

/-- A single literal character of the pattern. -/
def expectChar (c : Char) : List Char → Option (List Char)
  | x :: tl => if x = c then some tl else none
  | [] => none

/-- The class `([a-zA-Z0-9])`. -/
def alnumChar? : List Char → Option (Char × List Char)
  | x :: tl => if x.isAlphanum then some (x, tl) else none
  | [] => none

/-- The class `([a-zA-Z0-9*])`. -/
def supChar? : List Char → Option (Char × List Char)
  | x :: tl => if x.isAlphanum || x = '*' then some (x, tl) else none
  | [] => none

/-- Combined pattern 1: `\\([a-zA-Z]+)_\{([^}]+)\}\^\{([^}]+)\}`. -/
def cp1 (expr : List Char) : Option (String × String × String × List Char) := do
  let (b, r1) ← macroName? expr
  let r2 ← expectChar '_' r1
  let (sb, r3) ← braceArg? r2
  let r4 ← expectChar '^' r3
  let (sp, r5) ← braceArg? r4
  pure (String.mk b, String.mk sb, String.mk sp, r5)

/-- Combined pattern 2: `\\([a-zA-Z]+)_([a-zA-Z0-9])\^([a-zA-Z0-9*])`. -/
def cp2 (expr : List Char) : Option (String × String × String × List Char) := do
  let (b, r1) ← macroName? expr
  let r2 ← expectChar '_' r1
  let (sb, r3) ← alnumChar? r2
  let r4 ← expectChar '^' r3
  let (sp, r5) ← supChar? r4
  pure (String.mk b, String.mk [sb], String.mk [sp], r5)

/-- Combined pattern 3: `([a-zA-Z0-9])_\\([a-zA-Z]+)\^\{([^}]+)\}`. -/
def cp3 (expr : List Char) : Option (String × String × String × List Char) := do
  let (b, r1) ← alnumChar? expr
  let r2 ← expectChar '_' r1
  let (sb, r3) ← macroName? r2
  let r4 ← expectChar '^' r3
  let (sp, r5) ← braceArg? r4
  pure (String.mk [b], String.mk sb, String.mk sp, r5)

/-- Combined pattern 4: `([a-zA-Z0-9])_\\([a-zA-Z]+)\^([a-zA-Z0-9*])`. -/
def cp4 (expr : List Char) : Option (String × String × String × List Char) := do
  let (b, r1) ← alnumChar? expr
  let r2 ← expectChar '_' r1
  let (sb, r3) ← macroName? r2
  let r4 ← expectChar '^' r3
  let (sp, r5) ← supChar? r4
  pure (String.mk [b], String.mk sb, String.mk [sp], r5)

/-- Combined pattern 5: `([a-zA-Z0-9])_\{([^}]+)\}\^\{([^}]+)\}`. -/
def cp5 (expr : List Char) : Option (String × String × String × List Char) := do
  let (b, r1) ← alnumChar? expr
  let r2 ← expectChar '_' r1
  let (sb, r3) ← braceArg? r2
  let r4 ← expectChar '^' r3
  let (sp, r5) ← braceArg? r4
  pure (String.mk [b], String.mk sb, String.mk sp, r5)

/-- Combined pattern 6: `([a-zA-Z0-9])_([a-zA-Z0-9])\^([a-zA-Z0-9*])`. -/
def cp6 (expr : List Char) : Option (String × String × String × List Char) := do
  let (b, r1) ← alnumChar? expr
  let r2 ← expectChar '_' r1
  let (sb, r3) ← alnumChar? r2
  let r4 ← expectChar '^' r3
  let (sp, r5) ← supChar? r4
  pure (String.mk [b], String.mk [sb], String.mk [sp], r5)

/-- Recognizer 6: the six combined sub+sup patterns, tried in source order. -/
def combined_match? (expr : List Char) : Option (String × String × String × List Char) :=
  cp1 expr <|> cp2 expr <|> cp3 expr <|> cp4 expr <|> cp5 expr <|> cp6 expr

/-- Subscript pattern 1: `\\([a-zA-Z]+)_\{([^}]+)\}`. -/
def sp1 (expr : List Char) : Option (String × String × List Char) := do
  let (b, r1) ← macroName? expr
  let r2 ← expectChar '_' r1
  let (sb, r3) ← braceArg? r2
  pure (String.mk b, String.mk sb, r3)

/-- Subscript pattern 2: `\\([a-zA-Z]+)_([a-zA-Z0-9])`. -/
def sp2 (expr : List Char) : Option (String × String × List Char) := do
  let (b, r1) ← macroName? expr
  let r2 ← expectChar '_' r1
  let (sb, r3) ← alnumChar? r2
  pure (String.mk b, String.mk [sb], r3)

/-- Subscript pattern 3: `([a-zA-Z0-9])_\\([a-zA-Z]+)`. -/
def sp3 (expr : List Char) : Option (String × String × List Char) := do
  let (b, r1) ← alnumChar? expr
  let r2 ← expectChar '_' r1
  let (sb, r3) ← macroName? r2
  pure (String.mk [b], String.mk sb, r3)

/-- Subscript pattern 4: `([a-zA-Z0-9])_\{([^}]+)\}`. -/
def sp4 (expr : List Char) : Option (String × String × List Char) := do
  let (b, r1) ← alnumChar? expr
  let r2 ← expectChar '_' r1
  let (sb, r3) ← braceArg? r2
  pure (String.mk [b], String.mk sb, r3)

/-- Subscript pattern 5: `([a-zA-Z0-9])_([a-zA-Z0-9])`. -/
def sp5 (expr : List Char) : Option (String × String × List Char) := do
  let (b, r1) ← alnumChar? expr
  let r2 ← expectChar '_' r1
  let (sb, r3) ← alnumChar? r2
  pure (String.mk [b], String.mk [sb], r3)

/-- Recognizer 7: the five subscript patterns, tried in source order. -/
def sub_match? (expr : List Char) : Option (String × String × List Char) :=
  sp1 expr <|> sp2 expr <|> sp3 expr <|> sp4 expr <|> sp5 expr

/-- Superscript pattern 1: `\\([a-zA-Z]+)\^\{([^}]+)\}`. -/
def up1 (expr : List Char) : Option (String × String × List Char) := do
  let (b, r1) ← macroName? expr
  let r2 ← expectChar '^' r1
  let (sp, r3) ← braceArg? r2
  pure (String.mk b, String.mk sp, r3)

/-- Superscript pattern 2: `\\([a-zA-Z]+)\^([a-zA-Z0-9*])`. -/
def up2 (expr : List Char) : Option (String × String × List Char) := do
  let (b, r1) ← macroName? expr
  let r2 ← expectChar '^' r1
  let (sp, r3) ← supChar? r2
  pure (String.mk b, String.mk [sp], r3)

/-- Superscript pattern 3: `([a-zA-Z0-9])\^\{([^}]+)\}`. -/
def up3 (expr : List Char) : Option (String × String × List Char) := do
  let (b, r1) ← alnumChar? expr
  let r2 ← expectChar '^' r1
  let (sp, r3) ← braceArg? r2
  pure (String.mk [b], String.mk sp, r3)

/-- Superscript pattern 4: `([a-zA-Z0-9])\^([a-zA-Z0-9*])`. -/
def up4 (expr : List Char) : Option (String × String × List Char) := do
  let (b, r1) ← alnumChar? expr
  let r2 ← expectChar '^' r1
  let (sp, r3) ← supChar? r2
  pure (String.mk [b], String.mk [sp], r3)

/-- Recognizer 8: the four superscript patterns, tried in source order. -/
def sup_match? (expr : List Char) : Option (String × String × List Char) :=
  up1 expr <|> up2 expr <|> up3 expr <|> up4 expr

/-- Recognizer 10's character set `'=+-*/()[]\x7b\x7d,;: '`. -/
def opChars : List Char :=
  ['=', '+', '-', '*', '/', '(', ')', '[', ']', '{', '}', ',', ';', ':', ' ']

/-- Recognizer 11's class `[a-zA-Z0-9\.]`. -/
def txtChar (c : Char) : Bool := c.isAlphanum || c = '.'

/-! ## The parser -/

/-- Shared row post-processing of the `bmatrix` and `cases` branches:
strip the captured content, split on the row separator, strip each row,
drop blank rows. -/
def envRows (content : List Char) : List (List Char) :=
  ((splitRowSep (pyStrip content)).map pyStrip).filter (fun r => r ≠ [])

/-- The part of a `cases` row that is actually parsed: everything before the
first `&` (stripped) when a `&` is present, the whole row otherwise. -/
def caseRowContent (row : List Char) : List Char :=
  if row.contains '\x26' then pyStrip (row.takeWhile (fun c => c ≠ '\x26')) else row

/-- Matrix cells of one row: one recursive parse per cell, each cell closed
by the control-properties marker. -/
def parseCells (p : List Char → Option (List Xml)) : List (List Char) → Option (List Xml)
  | [] => some []
  | c :: cs => do
      let ci ← p c
      let rest ← parseCells p cs
      pure (eElem ci :: rest)

/-- Matrix rows: each row is split on `&`, cells stripped, then parsed. -/
def parseRows (p : List Char → Option (List Xml)) : List (List Char) → Option (List Xml)
  | [] => some []
  | r :: rs => do
      let cells ← parseCells p ((splitOnChar '\x26' r).map pyStrip)
      let rest ← parseRows p rs
      pure (mrElem cells :: rest)

/-- Rows of a `cases` body after the first: each preceded by a space run. -/
def parseCasesTail (p : List Char → Option (List Xml)) : List (List Char) → Option (List Xml)
  | [] => some []
  | row :: rest => do
      let xr ← p (caseRowContent row)
      let xs ← parseCasesTail p rest
      pure (math_run " " "default" :: (xr ++ xs))

/-- The full `cases` body: the first row, then space-separated later rows. -/
def parseCasesAll (p : List Char → Option (List Xml)) : List (List Char) → Option (List Xml)
  | [] => some []
  | row :: rest => do
      let xr ← p (caseRowContent row)
      let xs ← parseCasesTail p rest
      pure (xr ++ xs)

/-- Recognizers 10-12 of `_parse_expr` (operator character, alphanumeric run,
one-character fallback skip), reached when every pattern recognizer failed. -/
def parseTail (p : List Char → Option (List Xml)) (expr : List Char) : Option (List Xml) :=
  match expr with
  | [] => some []
  | c :: tl =>
      if opChars.contains c then do
        let xr ← p tl
        pure (math_run (String.mk [c]) "default" :: xr)
      else if txtChar c then do
        let xr ← p (expr.dropWhile txtChar)
        pure (math_run (String.mk (expr.takeWhile txtChar)) "default" :: xr)
      else if tl = [] then some [] else p tl

/-- One unfolding of `_parse_expr`: all recognizers in source priority order,
recursive calls delegated to `p`.  Returns the list of children appended to
the parent. -/
def parseStep (p : List Char → Option (List Xml)) (expr0 : List Char) : Option (List Xml) :=
  let expr := pyStrip expr0
  if expr = [] then some []
  else
    match func_paren_match? expr with
    | some (name, inner, rest) => do
        let xi ← p inner
        let xr ← p rest
        pure (math_run name "default" :: dElem "(" ")" xi :: xr)
    | none =>
    match paren_match? expr with
    | some (inner, rest) =>
        if containsSub ("\\frac".toList) inner || inner.contains '\\' then do
          let xi ← p inner
          let xr ← p rest
          pure (dElem "(" ")" xi :: xr)
        else do
          let xi ← p inner
          let xr ← p rest
          pure (math_run "(" "default" :: (xi ++ (math_run ")" "default" :: xr)))
    | none =>
    match matrix_match? expr with
    | some (content, rest) => do
        let rows ← parseRows p (envRows content)
        let xr ← p rest
        pure (dElem "[" "]" [mElem rows] :: xr)
    | none =>
    match cases_match? expr with
    | some (content, rest) => do
        let body ← parseCasesAll p (envRows content)
        let xr ← p rest
        pure (dElem "\x7b" "" body :: xr)
    | none =>
    match frac_match? expr with
    | some (g1, g2, rest) => do
        let xn ← p g1
        let xd ← p g2
        let xr ← p rest
        pure (fElem xn xd :: ctrl_pr :: xr)
    | none =>
    match combined_match? expr with
    | some (b, sb, sp, rest) => do
        let xr ← p rest
        pure (sSubSupElem b sb sp :: xr)
    | none =>
    match sub_match? expr with
    | some (b, sb, rest) => do
        let xr ← p rest
        pure (sSubElem b sb :: xr)
    | none =>
    match sup_match? expr with
    | some (b, sp, rest) => do
        let xr ← p rest
        pure (sSupElem b sp :: xr)
    | none =>
    match macroName? expr with
    | some (nm, rest) =>
        match greekLookup (String.mk nm) with
        | some g => do
            let xr ← p rest
            pure (math_run g "eastAsia" :: xr)
        | none => parseTail p expr
    | none => parseTail p expr

/-- `_parse_expr`, with an explicit fuel bound on the recursion depth.
`none` means the fuel ran out; the totality theorem shows that
`length + 1` fuel always suffices. -/
def parse_exprF : Nat → List Char → Option (List Xml)
  | 0 => fun _ => none
  | n + 1 => parseStep (parse_exprF n)

/-- `_parse_expr` as a total function: the children appended to the parent. -/
def parse_expr (expr : List Char) : List Xml :=
  (parse_exprF (expr.length + 1) expr).getD []

/-- `LatexToOmmlConverter.convert`: strip, remove one enclosing `$$...$$` or
`$...$` pair, parse.  `none` models Python's `None` (no formula); `some l`
models an `m:oMath` element with children `l`. -/
def convert (latex : String) : Option (List Xml) :=
  let l := pyStrip latex.toList
  if l = [] then none
  else
    let l2 :=
      if ("$$".toList).isPrefixOf l && ("$$".toList).isSuffixOf l then
        pyStrip ((l.drop 2).take (l.length - 4))
      else if ['$'].isPrefixOf l && ['$'].isSuffixOf l then
        pyStrip ((l.drop 1).take (l.length - 2))
      else l
    some (parse_expr l2)

/-! ## Structural checkers used by the invariant claims -/

/-- Is this element the control-properties marker (`m:ctrlPr`)? -/
def isCtrlPr : Xml → Bool
  | .elem t _ _ _ => t == "m:ctrlPr"

/-- Is this element a Fraction node (`m:f`)? -/
def isFrac : Xml → Bool
  | .elem t _ _ _ => t == "m:f"

/-- Is this element a Delimited group (`m:d`)? -/
def isD : Xml → Bool
  | .elem t _ _ _ => t == "m:d"

/-- Does a (children) list end with the control-properties marker? -/
def lastIsCtrl (l : List Xml) : Bool :=
  match l.getLast? with
  | some x => isCtrlPr x
  | none => false

/-- Does this element's own child list end with the marker? -/
def ownLastIsCtrl : Xml → Bool
  | .elem _ _ _ ch => lastIsCtrl ch

/-- Tags of the nodes that DO carry the control-properties marker as their own
last child in the produced output.  `m:f` (Fraction) and `m:m` (Matrix) are
absent: the Fraction's marker is appended to its parent, and the Matrix node
ends with its last row (its properties child `m:mPr` carries a marker). -/
def markerTags : List String :=
  ["m:d", "m:sSub", "m:sSup", "m:sSubSup", "m:e", "m:num", "m:den", "m:sub", "m:sup",
   "m:dPr", "m:fPr", "m:sSubPr", "m:sSupPr", "m:sSubSupPr", "m:mPr"]

mutual

/-- Marker discipline of one node: nodes with a tag in `markerTags` end with
the marker, and all children recursively satisfy the same property. -/
def markerNode : Xml → Bool
  | .elem t _ _ ch => (!(markerTags.contains t) || lastIsCtrl ch) && markerForest ch

/-- Marker discipline of a sibling list: every node satisfies `markerNode`,
and every Fraction (`m:f`) node is immediately followed by a marker sibling
(in particular no list ends with a Fraction). -/
def markerForest : List Xml → Bool
  | [] => true
  | [x] => markerNode x && !(isFrac x)
  | x :: y :: tl => markerNode x && (!(isFrac x) || isCtrlPr y) && markerForest (y :: tl)

end

mutual

/-- Matrix-properties discipline of one node: every `m:m` node's first child
is exactly the fixed single-column, center-justified properties element. -/
def mcolNodeP : Xml → Prop
  | .elem t _ _ ch => (t = "m:m" → ∃ rows, ch = mPrElem :: rows) ∧ mcolForestP ch

/-- Matrix-properties discipline of a sibling list. -/
def mcolForestP : List Xml → Prop
  | [] => True
  | x :: xs => mcolNodeP x ∧ mcolForestP xs

end

/-- The rows of a `cases` body after the first, each preceded by a space run
(total form, used to state what the cases branch produces). -/
def casesTailT : List (List Char) → List Xml
  | [] => []
  | row :: rest => math_run " " "default" :: (parse_expr (caseRowContent row) ++ casesTailT rest)

/-- The full `cases` body in total form: row parses joined by space runs. -/
def casesBodyT : List (List Char) → List Xml
  | [] => []
  | row :: rest => parse_expr (caseRowContent row) ++ casesTailT rest

example : parse_expr ("x".toList) = [math_run "x" "default"] := rfl

example : parse_expr ("cos(x+1)".toList) =
    [math_run "cos" "default", math_run "(" "default", math_run "x" "default",
     math_run "+" "default", math_run "1" "default", math_run ")" "default"] := rfl

example : parse_expr ("\\cos(x+1)".toList) =
    [math_run "cos" "default",
     dElem "(" ")" [math_run "x" "default", math_run "+" "default", math_run "1" "default"]] := rfl

example : parse_expr ("\\frac{1}{2}".toList) =
    [fElem [math_run "1" "default"] [math_run "2" "default"], ctrl_pr] := rfl

example : parse_expr ("\\omega_e^*".toList) = [sSubSupElem "omega" "e" "*"] := rfl

example : parse_expr ("\\foo".toList) = [math_run "foo" "default"] := rfl

example : parse_expr ("((\\alpha))".toList) =
    [dElem "(" ")" [math_run "(" "default", math_run "α" "eastAsia"],
     math_run ")" "default"] := rfl

example : parse_expr ("\\begin{bmatrix}a&b\\\\c&d\\end{bmatrix}".toList) =
    [dElem "[" "]"
      [mElem
        [mrElem [eElem [math_run "a" "default"], eElem [math_run "b" "default"]],
         mrElem [eElem [math_run "c" "default"], eElem [math_run "d" "default"]]]]] := rfl

example : parse_expr ("\\begin{cases}x&a\\\\y\\end{cases}".toList) =
    [dElem "\x7b" ""
      [math_run "x" "default", math_run " " "default", math_run "y" "default"]] := rfl

example : convert "" = none := rfl

example : convert "$$" = some [] := rfl

example : convert "$$ $$" = some [] := rfl

example : parse_expr ("x_d^*".toList) = parse_expr ("x_{d}^{*}".toList) := rfl

/-! ## Length bounds -/

theorem dropWhile_len_le (p : Char → Bool) (l : List Char) :
    (l.dropWhile p).length ≤ l.length :=
  (List.dropWhile_sublist p).length_le

theorem takeWhile_len_le (p : Char → Bool) (l : List Char) :
    (l.takeWhile p).length ≤ l.length :=
  (List.takeWhile_sublist p).length_le

theorem pyStrip_len_le (l : List Char) : (pyStrip l).length ≤ l.length := by
  unfold pyStrip
  rw [List.length_reverse]
  calc ((l.dropWhile pyIsSpace).reverse.dropWhile pyIsSpace).length
      ≤ (l.dropWhile pyIsSpace).reverse.length := dropWhile_len_le _ _
    _ = (l.dropWhile pyIsSpace).length := List.length_reverse _
    _ ≤ l.length := dropWhile_len_le _ _

theorem splitFirst?_eq {c : Char} :
    ∀ {l a b : List Char}, splitFirst? c l = some (a, b) → l = a ++ c :: b := by
  intro l
  induction l with
  | nil => intro a b h; simp [splitFirst?] at h
  | cons x xs ih =>
      intro a b h
      unfold splitFirst? at h
      by_cases hx : x = c
      · rw [if_pos hx] at h
        injection h with h
        injection h with h1 h2
        subst h1; subst h2; subst hx; rfl
      · rw [if_neg hx] at h
        cases hs : splitFirst? c xs with
        | none => rw [hs] at h; simp at h
        | some p =>
            rw [hs] at h
            obtain ⟨a2, b2⟩ := p
            simp only [Option.map_some'] at h
            injection h with h
            injection h with h1 h2
            subst h1; subst h2
            have hxs := ih hs
            subst hxs; rfl

theorem splitFirst?_len {c : Char} {l a b : List Char} (h : splitFirst? c l = some (a, b)) :
    a.length < l.length ∧ b.length < l.length := by
  have he := splitFirst?_eq h
  subst he
  simp only [List.length_append, List.length_cons]
  omega

theorem splitFirstSub?_eq {pat : List Char} :
    ∀ {l a b : List Char}, splitFirstSub? pat l = some (a, b) → l = a ++ pat ++ b := by
  intro l
  induction l with
  | nil => intro a b h; simp [splitFirstSub?] at h
  | cons x xs ih =>
      intro a b h
      unfold splitFirstSub? at h
      by_cases hp : pat.isPrefixOf (x :: xs)
      · rw [if_pos hp] at h
        injection h with h
        injection h with h1 h2
        subst h1; subst h2
        obtain ⟨t, ht⟩ := List.isPrefixOf_iff_prefix.mp hp
        rw [← ht, List.drop_left]
        simp
      · rw [if_neg hp] at h
        cases hs : splitFirstSub? pat xs with
        | none => rw [hs] at h; simp at h
        | some p =>
            rw [hs] at h
            obtain ⟨a2, b2⟩ := p
            simp only [Option.map_some'] at h
            injection h with h
            injection h with h1 h2
            subst h1; subst h2
            have hxs := ih hs
            subst hxs; rfl

theorem splitFirstSub?_len {pat l a b : List Char} (hpat : pat ≠ [])
    (h : splitFirstSub? pat l = some (a, b)) :
    a.length < l.length ∧ b.length < l.length := by
  have he := splitFirstSub?_eq h
  subst he
  have hl : 0 < pat.length := List.length_pos.mpr hpat
  simp only [List.length_append]
  omega

theorem splitOnChar_mem_len {c : Char} :
    ∀ {l r : List Char}, r ∈ splitOnChar c l → r.length ≤ l.length := by
  intro l
  induction l with
  | nil =>
      intro r h
      simp [splitOnChar] at h
      subst h; simp
  | cons x xs ih =>
      intro r h
      unfold splitOnChar at h
      by_cases hx : x = c
      · rw [if_pos hx] at h
        rcases List.mem_cons.mp h with h1 | h2
        · subst h1; simp
        · exact le_trans (ih h2) (by simp)
      · rw [if_neg hx] at h
        cases hs : splitOnChar c xs with
        | nil => rw [hs] at h; simp at h; subst h; simp
        | cons hh tt =>
            rw [hs] at h
            rcases List.mem_cons.mp h with h1 | h2
            · subst h1
              have hm : hh ∈ splitOnChar c xs := by rw [hs]; exact List.mem_cons_self _ _
              have := ih hm
              simp only [List.length_cons]
              omega
            · have hm : r ∈ splitOnChar c xs := by
                rw [hs]; exact List.mem_cons.mpr (Or.inr h2)
              exact le_trans (ih hm) (by simp)

theorem splitRowSep_mem_len :
    ∀ (l : List Char), ∀ r ∈ splitRowSep l, r.length ≤ l.length := by
  intro l
  induction l using splitRowSep.induct with
  | case1 =>
      intro r h
      simp [splitRowSep] at h
      subst h; simp
  | case2 rest ih =>
      intro r h
      rw [splitRowSep.eq_2] at h
      rcases List.mem_cons.mp h with h1 | h2
      · subst h1; simp
      · refine le_trans (ih r h2) ?h
        simp only [List.length_cons]
        omega
  | case3 x xs hne heq ih =>
      intro r h
      rw [splitRowSep.eq_3 x xs hne, heq] at h
      have hr : r = [x] := by simpa using h
      subst hr
      simp only [List.length_cons, List.length_nil]
      omega
  | case4 x xs hne hh tt heq ih =>
      intro r h
      rw [splitRowSep.eq_3 x xs hne, heq] at h
      rcases List.mem_cons.mp h with h1 | h2
      · subst h1
        have hm : hh ∈ splitRowSep xs := by rw [heq]; exact List.mem_cons_self _ _
        have := ih hh hm
        simp only [List.length_cons]
        omega
      · have hm : r ∈ splitRowSep xs := by rw [heq]; exact List.mem_cons.mpr (Or.inr h2)
        refine le_trans (ih r hm) ?h
        simp only [List.length_cons]
        omega

theorem envRows_mem_len {content r : List Char} (h : r ∈ envRows content) :
    r.length ≤ content.length := by
  unfold envRows at h
  have h1 := (List.mem_filter.mp h).1
  obtain ⟨r0, hr0, hmap⟩ := List.mem_map.mp h1
  subst hmap
  calc (pyStrip r0).length
      ≤ r0.length := pyStrip_len_le _
    _ ≤ (pyStrip content).length := splitRowSep_mem_len _ _ hr0
    _ ≤ content.length := pyStrip_len_le _

theorem caseRowContent_len (row : List Char) :
    (caseRowContent row).length ≤ row.length := by
  unfold caseRowContent
  by_cases hc : row.contains '\x26'
  · rw [if_pos hc]
    exact le_trans (pyStrip_len_le _) (takeWhile_len_le _ _)
  · rw [if_neg hc]

theorem bind_some_elim {α β : Type} {o : Option α} {f : α → Option β} {b : β}
    (h : o.bind f = some b) : ∃ a, o = some a ∧ f a = some b := by
  cases o with
  | none => simp at h
  | some a => exact ⟨a, rfl, h⟩

theorem orElse_some_elim {α : Type} {o1 : Option α} {o2 : Unit → Option α} {a : α}
    (h : (Option.orElse o1 o2) = some a) : o1 = some a ∨ o2 () = some a := by
  cases o1 with
  | none => right; simpa [Option.orElse] using h
  | some x => left; simpa [Option.orElse] using h

theorem macroName?_len {l nm r : List Char} (h : macroName? l = some (nm, r)) :
    r.length < l.length := by
  cases l with
  | nil => simp [macroName?] at h
  | cons x tl =>
      simp only [macroName?] at h
      by_cases hx : x = '\\'
      · rw [if_pos hx] at h
        by_cases ht : tl.takeWhile Char.isAlpha = []
        · rw [if_pos ht] at h; simp at h
        · rw [if_neg ht] at h
          injection h with h
          injection h with h1 h2
          subst h2
          have := dropWhile_len_le Char.isAlpha tl
          simp only [List.length_cons]
          omega
      · rw [if_neg hx] at h; simp at h

theorem expectChar_len {c : Char} {l r : List Char} (h : expectChar c l = some r) :
    r.length < l.length := by
  cases l with
  | nil => simp [expectChar] at h
  | cons x tl =>
      simp only [expectChar] at h
      by_cases hx : x = c
      · rw [if_pos hx] at h
        injection h with h
        subst h; simp
      · rw [if_neg hx] at h; simp at h

theorem braceArg?_len {l g r : List Char} (h : braceArg? l = some (g, r)) :
    r.length < l.length := by
  cases l with
  | nil => simp [braceArg?] at h
  | cons x tl =>
      simp only [braceArg?] at h
      by_cases hx : x = '{'
      · rw [if_pos hx] at h
        cases hs : splitFirst? '}' tl with
        | none => rw [hs] at h; simp at h
        | some p =>
            rw [hs] at h
            obtain ⟨g0, r0⟩ := p
            by_cases hg : g0 = []
            · simp [hg] at h
            · simp [hg] at h
              obtain ⟨h1, h2⟩ := h
              subst h2
              have := (splitFirst?_len hs).2
              simp only [List.length_cons]
              omega
      · rw [if_neg hx] at h; simp at h

theorem alnumChar?_len {l : List Char} {c : Char} {r : List Char}
    (h : alnumChar? l = some (c, r)) : r.length < l.length := by
  cases l with
  | nil => simp [alnumChar?] at h
  | cons x tl =>
      simp only [alnumChar?] at h
      by_cases hx : x.isAlphanum
      · rw [if_pos hx] at h
        injection h with h
        injection h with h1 h2
        subst h2; simp
      · rw [if_neg hx] at h; simp at h

theorem supChar?_len {l : List Char} {c : Char} {r : List Char}
    (h : supChar? l = some (c, r)) : r.length < l.length := by
  cases l with
  | nil => simp [supChar?] at h
  | cons x tl =>
      simp only [supChar?] at h
      by_cases hx : x.isAlphanum || x = '*'
      · rw [if_pos hx] at h
        injection h with h
        injection h with h1 h2
        subst h2; simp
      · rw [if_neg hx] at h; simp at h

theorem cp1_len {expr : List Char} {b sb sp : String} {r : List Char}
    (h : cp1 expr = some (b, sb, sp, r)) : r.length < expr.length := by
  unfold cp1 at h
  obtain ⟨⟨b1, r1⟩, h1, h⟩ := bind_some_elim h
  obtain ⟨r2, h2, h⟩ := bind_some_elim h
  obtain ⟨⟨g1, r3⟩, h3, h⟩ := bind_some_elim h
  obtain ⟨r4, h4, h⟩ := bind_some_elim h
  obtain ⟨⟨g2, r5⟩, h5, h⟩ := bind_some_elim h
  have e1 := macroName?_len h1
  have e2 := expectChar_len h2
  have e3 := braceArg?_len h3
  have e4 := expectChar_len h4
  have e5 := braceArg?_len h5
  have hr : r = r5 := by
    simp only [pure] at h
    injection h with h
    injection h with ha h
    injection h with hb h
    injection h with hc hd
    exact hd.symm
  subst hr
  omega


theorem cp2_len {expr : List Char} {b sb sp : String} {r : List Char}
    (h : cp2 expr = some (b, sb, sp, r)) : r.length < expr.length := by
  unfold cp2 at h
  obtain ⟨⟨g1, r1⟩, h1, h⟩ := bind_some_elim h
  obtain ⟨r2, h2, h⟩ := bind_some_elim h
  obtain ⟨⟨g3, r3⟩, h3, h⟩ := bind_some_elim h
  obtain ⟨r4, h4, h⟩ := bind_some_elim h
  obtain ⟨⟨g5, r5⟩, h5, h⟩ := bind_some_elim h
  have e1 := macroName?_len h1
  have e2 := expectChar_len h2
  have e3 := alnumChar?_len h3
  have e4 := expectChar_len h4
  have e5 := supChar?_len h5
  have hr : r = r5 := by
    simp only [pure] at h
    injection h with h
    injection h with ha h
    injection h with hb h
    injection h with hc hd
    exact hd.symm
  subst hr
  omega

theorem cp3_len {expr : List Char} {b sb sp : String} {r : List Char}
    (h : cp3 expr = some (b, sb, sp, r)) : r.length < expr.length := by
  unfold cp3 at h
  obtain ⟨⟨g1, r1⟩, h1, h⟩ := bind_some_elim h
  obtain ⟨r2, h2, h⟩ := bind_some_elim h
  obtain ⟨⟨g3, r3⟩, h3, h⟩ := bind_some_elim h
  obtain ⟨r4, h4, h⟩ := bind_some_elim h
  obtain ⟨⟨g5, r5⟩, h5, h⟩ := bind_some_elim h
  have e1 := alnumChar?_len h1
  have e2 := expectChar_len h2
  have e3 := macroName?_len h3
  have e4 := expectChar_len h4
  have e5 := braceArg?_len h5
  have hr : r = r5 := by
    simp only [pure] at h
    injection h with h
    injection h with ha h
    injection h with hb h
    injection h with hc hd
    exact hd.symm
  subst hr
  omega

theorem cp4_len {expr : List Char} {b sb sp : String} {r : List Char}
    (h : cp4 expr = some (b, sb, sp, r)) : r.length < expr.length := by
  unfold cp4 at h
  obtain ⟨⟨g1, r1⟩, h1, h⟩ := bind_some_elim h
  obtain ⟨r2, h2, h⟩ := bind_some_elim h
  obtain ⟨⟨g3, r3⟩, h3, h⟩ := bind_some_elim h
  obtain ⟨r4, h4, h⟩ := bind_some_elim h
  obtain ⟨⟨g5, r5⟩, h5, h⟩ := bind_some_elim h
  have e1 := alnumChar?_len h1
  have e2 := expectChar_len h2
  have e3 := macroName?_len h3
  have e4 := expectChar_len h4
  have e5 := supChar?_len h5
  have hr : r = r5 := by
    simp only [pure] at h
    injection h with h
    injection h with ha h
    injection h with hb h
    injection h with hc hd
    exact hd.symm
  subst hr
  omega

theorem cp5_len {expr : List Char} {b sb sp : String} {r : List Char}
    (h : cp5 expr = some (b, sb, sp, r)) : r.length < expr.length := by
  unfold cp5 at h
  obtain ⟨⟨g1, r1⟩, h1, h⟩ := bind_some_elim h
  obtain ⟨r2, h2, h⟩ := bind_some_elim h
  obtain ⟨⟨g3, r3⟩, h3, h⟩ := bind_some_elim h
  obtain ⟨r4, h4, h⟩ := bind_some_elim h
  obtain ⟨⟨g5, r5⟩, h5, h⟩ := bind_some_elim h
  have e1 := alnumChar?_len h1
  have e2 := expectChar_len h2
  have e3 := braceArg?_len h3
  have e4 := expectChar_len h4
  have e5 := braceArg?_len h5
  have hr : r = r5 := by
    simp only [pure] at h
    injection h with h
    injection h with ha h
    injection h with hb h
    injection h with hc hd
    exact hd.symm
  subst hr
  omega

theorem cp6_len {expr : List Char} {b sb sp : String} {r : List Char}
    (h : cp6 expr = some (b, sb, sp, r)) : r.length < expr.length := by
  unfold cp6 at h
  obtain ⟨⟨g1, r1⟩, h1, h⟩ := bind_some_elim h
  obtain ⟨r2, h2, h⟩ := bind_some_elim h
  obtain ⟨⟨g3, r3⟩, h3, h⟩ := bind_some_elim h
  obtain ⟨r4, h4, h⟩ := bind_some_elim h
  obtain ⟨⟨g5, r5⟩, h5, h⟩ := bind_some_elim h
  have e1 := alnumChar?_len h1
  have e2 := expectChar_len h2
  have e3 := alnumChar?_len h3
  have e4 := expectChar_len h4
  have e5 := supChar?_len h5
  have hr : r = r5 := by
    simp only [pure] at h
    injection h with h
    injection h with ha h
    injection h with hb h
    injection h with hc hd
    exact hd.symm
  subst hr
  omega

theorem sp1_len {expr : List Char} {b sb : String} {r : List Char}
    (h : sp1 expr = some (b, sb, r)) : r.length < expr.length := by
  unfold sp1 at h
  obtain ⟨⟨g1, r1⟩, h1, h⟩ := bind_some_elim h
  obtain ⟨r2, h2, h⟩ := bind_some_elim h
  obtain ⟨⟨g3, r3⟩, h3, h⟩ := bind_some_elim h
  have e1 := macroName?_len h1
  have e2 := expectChar_len h2
  have e3 := braceArg?_len h3
  have hr : r = r3 := by
    simp only [pure] at h
    injection h with h
    injection h with ha h
    injection h with hb hc
    exact hc.symm
  subst hr
  omega

theorem sp2_len {expr : List Char} {b sb : String} {r : List Char}
    (h : sp2 expr = some (b, sb, r)) : r.length < expr.length := by
  unfold sp2 at h
  obtain ⟨⟨g1, r1⟩, h1, h⟩ := bind_some_elim h
  obtain ⟨r2, h2, h⟩ := bind_some_elim h
  obtain ⟨⟨g3, r3⟩, h3, h⟩ := bind_some_elim h
  have e1 := macroName?_len h1
  have e2 := expectChar_len h2
  have e3 := alnumChar?_len h3
  have hr : r = r3 := by
    simp only [pure] at h
    injection h with h
    injection h with ha h
    injection h with hb hc
    exact hc.symm
  subst hr
  omega

theorem sp3_len {expr : List Char} {b sb : String} {r : List Char}
    (h : sp3 expr = some (b, sb, r)) : r.length < expr.length := by
  unfold sp3 at h
  obtain ⟨⟨g1, r1⟩, h1, h⟩ := bind_some_elim h
  obtain ⟨r2, h2, h⟩ := bind_some_elim h
  obtain ⟨⟨g3, r3⟩, h3, h⟩ := bind_some_elim h
  have e1 := alnumChar?_len h1
  have e2 := expectChar_len h2
  have e3 := macroName?_len h3
  have hr : r = r3 := by
    simp only [pure] at h
    injection h with h
    injection h with ha h
    injection h with hb hc
    exact hc.symm
  subst hr
  omega

theorem sp4_len {expr : List Char} {b sb : String} {r : List Char}
    (h : sp4 expr = some (b, sb, r)) : r.length < expr.length := by
  unfold sp4 at h
  obtain ⟨⟨g1, r1⟩, h1, h⟩ := bind_some_elim h
  obtain ⟨r2, h2, h⟩ := bind_some_elim h
  obtain ⟨⟨g3, r3⟩, h3, h⟩ := bind_some_elim h
  have e1 := alnumChar?_len h1
  have e2 := expectChar_len h2
  have e3 := braceArg?_len h3
  have hr : r = r3 := by
    simp only [pure] at h
    injection h with h
    injection h with ha h
    injection h with hb hc
    exact hc.symm
  subst hr
  omega

theorem sp5_len {expr : List Char} {b sb : String} {r : List Char}
    (h : sp5 expr = some (b, sb, r)) : r.length < expr.length := by
  unfold sp5 at h
  obtain ⟨⟨g1, r1⟩, h1, h⟩ := bind_some_elim h
  obtain ⟨r2, h2, h⟩ := bind_some_elim h
  obtain ⟨⟨g3, r3⟩, h3, h⟩ := bind_some_elim h
  have e1 := alnumChar?_len h1
  have e2 := expectChar_len h2
  have e3 := alnumChar?_len h3
  have hr : r = r3 := by
    simp only [pure] at h
    injection h with h
    injection h with ha h
    injection h with hb hc
    exact hc.symm
  subst hr
  omega

theorem up1_len {expr : List Char} {b sb : String} {r : List Char}
    (h : up1 expr = some (b, sb, r)) : r.length < expr.length := by
  unfold up1 at h
  obtain ⟨⟨g1, r1⟩, h1, h⟩ := bind_some_elim h
  obtain ⟨r2, h2, h⟩ := bind_some_elim h
  obtain ⟨⟨g3, r3⟩, h3, h⟩ := bind_some_elim h
  have e1 := macroName?_len h1
  have e2 := expectChar_len h2
  have e3 := braceArg?_len h3
  have hr : r = r3 := by
    simp only [pure] at h
    injection h with h
    injection h with ha h
    injection h with hb hc
    exact hc.symm
  subst hr
  omega

theorem up2_len {expr : List Char} {b sb : String} {r : List Char}
    (h : up2 expr = some (b, sb, r)) : r.length < expr.length := by
  unfold up2 at h
  obtain ⟨⟨g1, r1⟩, h1, h⟩ := bind_some_elim h
  obtain ⟨r2, h2, h⟩ := bind_some_elim h
  obtain ⟨⟨g3, r3⟩, h3, h⟩ := bind_some_elim h
  have e1 := macroName?_len h1
  have e2 := expectChar_len h2
  have e3 := supChar?_len h3
  have hr : r = r3 := by
    simp only [pure] at h
    injection h with h
    injection h with ha h
    injection h with hb hc
    exact hc.symm
  subst hr
  omega

theorem up3_len {expr : List Char} {b sb : String} {r : List Char}
    (h : up3 expr = some (b, sb, r)) : r.length < expr.length := by
  unfold up3 at h
  obtain ⟨⟨g1, r1⟩, h1, h⟩ := bind_some_elim h
  obtain ⟨r2, h2, h⟩ := bind_some_elim h
  obtain ⟨⟨g3, r3⟩, h3, h⟩ := bind_some_elim h
  have e1 := alnumChar?_len h1
  have e2 := expectChar_len h2
  have e3 := braceArg?_len h3
  have hr : r = r3 := by
    simp only [pure] at h
    injection h with h
    injection h with ha h
    injection h with hb hc
    exact hc.symm
  subst hr
  omega

theorem up4_len {expr : List Char} {b sb : String} {r : List Char}
    (h : up4 expr = some (b, sb, r)) : r.length < expr.length := by
  unfold up4 at h
  obtain ⟨⟨g1, r1⟩, h1, h⟩ := bind_some_elim h
  obtain ⟨r2, h2, h⟩ := bind_some_elim h
  obtain ⟨⟨g3, r3⟩, h3, h⟩ := bind_some_elim h
  have e1 := alnumChar?_len h1
  have e2 := expectChar_len h2
  have e3 := supChar?_len h3
  have hr : r = r3 := by
    simp only [pure] at h
    injection h with h
    injection h with ha h
    injection h with hb hc
    exact hc.symm
  subst hr
  omega

theorem combined_match?_len {expr : List Char} {b sb sp : String} {r : List Char}
    (h : combined_match? expr = some (b, sb, sp, r)) : r.length < expr.length := by
  unfold combined_match? at h
  rcases orElse_some_elim h with h | h
  · exact cp1_len h
  rcases orElse_some_elim h with h | h
  · exact cp2_len h
  rcases orElse_some_elim h with h | h
  · exact cp3_len h
  rcases orElse_some_elim h with h | h
  · exact cp4_len h
  rcases orElse_some_elim h with h | h
  · exact cp5_len h
  · exact cp6_len h

theorem sub_match?_len {expr : List Char} {b sb : String} {r : List Char}
    (h : sub_match? expr = some (b, sb, r)) : r.length < expr.length := by
  unfold sub_match? at h
  rcases orElse_some_elim h with h | h
  · exact sp1_len h
  rcases orElse_some_elim h with h | h
  · exact sp2_len h
  rcases orElse_some_elim h with h | h
  · exact sp3_len h
  rcases orElse_some_elim h with h | h
  · exact sp4_len h
  · exact sp5_len h

theorem sup_match?_len {expr : List Char} {b sp : String} {r : List Char}
    (h : sup_match? expr = some (b, sp, r)) : r.length < expr.length := by
  unfold sup_match? at h
  rcases orElse_some_elim h with h | h
  · exact up1_len h
  rcases orElse_some_elim h with h | h
  · exact up2_len h
  rcases orElse_some_elim h with h | h
  · exact up3_len h
  · exact up4_len h

theorem paren_match?_len {expr inner rest : List Char}
    (h : paren_match? expr = some (inner, rest)) :
    inner.length < expr.length ∧ rest.length < expr.length := by
  cases expr with
  | nil => simp [paren_match?] at h
  | cons x tl =>
      simp only [paren_match?] at h
      by_cases hx : x = '('
      · rw [if_pos hx] at h
        cases hs : splitFirst? ')' tl with
        | none => rw [hs] at h; simp at h
        | some p =>
            rw [hs] at h
            obtain ⟨i0, r0⟩ := p
            by_cases hi : i0 = []
            · simp [hi] at h
            · simp [hi] at h
              obtain ⟨h1, h2⟩ := h
              subst h1; subst h2
              have := splitFirst?_len hs
              simp only [List.length_cons]
              omega
      · rw [if_neg hx] at h; simp at h

theorem func_paren_match?_len {expr : List Char} {name : String} {inner rest : List Char}
    (h : func_paren_match? expr = some (name, inner, rest)) :
    inner.length < expr.length ∧ rest.length < expr.length := by
  cases expr with
  | nil => simp [func_paren_match?] at h
  | cons x tl =>
      simp only [func_paren_match?] at h
      by_cases hx : x = '\\'
      · rw [if_pos hx] at h
        cases hf : funcNames.find? (fun n => n.toList.isPrefixOf tl) with
        | none => simp only [hf] at h; simp at h
        | some nm =>
            simp only [hf] at h
            cases hw : (tl.drop nm.length).dropWhile pyIsSpace with
            | nil => simp only [hw] at h; simp at h
            | cons y tl2 =>
                simp only [hw] at h
                by_cases hy : y = '('
                · rw [if_pos hy] at h
                  cases hs : splitFirst? ')' tl2 with
                  | none => simp only [hs] at h; simp at h
                  | some p =>
                      obtain ⟨i0, r0⟩ := p
                      simp only [hs] at h
                      by_cases hi : i0 = []
                      · simp [hi] at h
                      · simp [hi] at h
                        obtain ⟨hn, h1, h2⟩ := h
                        subst h1; subst h2
                        have hsp := splitFirst?_len hs
                        have hw_le : ((tl.drop nm.length).dropWhile pyIsSpace).length ≤ tl.length := by
                          refine le_trans (dropWhile_len_le _ _) ?h
                          simp only [List.length_drop]
                          omega
                        rw [hw] at hw_le
                        simp only [List.length_cons] at hw_le ⊢
                        omega
                · rw [if_neg hy] at h; simp at h
      · rw [if_neg hx] at h; simp at h

theorem matrix_match?_len {expr content rest : List Char}
    (h : matrix_match? expr = some (content, rest)) :
    content.length < expr.length ∧ rest.length < expr.length := by
  unfold matrix_match? at h
  by_cases hp : ("\\begin{bmatrix}".toList).isPrefixOf expr
  · rw [if_pos hp] at h
    have hlen := splitFirstSub?_len (by decide) h
    have hple : ("\\begin{bmatrix}".toList).length ≤ expr.length :=
      (List.isPrefixOf_iff_prefix.mp hp).length_le
    have hdl : (expr.drop ("\\begin{bmatrix}".toList).length).length
        = expr.length - ("\\begin{bmatrix}".toList).length := by
      simp [List.length_drop]
    rw [hdl] at hlen
    have h15 : ("\\begin{bmatrix}".toList).length = 15 := by decide
    rw [h15] at hlen hple
    omega
  · rw [if_neg hp] at h; simp at h

theorem cases_match?_len {expr content rest : List Char}
    (h : cases_match? expr = some (content, rest)) :
    content.length < expr.length ∧ rest.length < expr.length := by
  unfold cases_match? at h
  by_cases hp : ("\\begin{cases}".toList).isPrefixOf expr
  · rw [if_pos hp] at h
    have hlen := splitFirstSub?_len (by decide) h
    have hple : ("\\begin{cases}".toList).length ≤ expr.length :=
      (List.isPrefixOf_iff_prefix.mp hp).length_le
    have hdl : (expr.drop ("\\begin{cases}".toList).length).length
        = expr.length - ("\\begin{cases}".toList).length := by
      simp [List.length_drop]
    rw [hdl] at hlen
    have h13 : ("\\begin{cases}".toList).length = 13 := by decide
    rw [h13] at hlen hple
    omega
  · rw [if_neg hp] at h; simp at h

theorem frac_match?_len {expr g1 g2 rest : List Char}
    (h : frac_match? expr = some (g1, g2, rest)) :
    g1.length < expr.length ∧ g2.length < expr.length ∧ rest.length < expr.length := by
  unfold frac_match? at h
  by_cases hp : ("\\frac".toList ++ ['{']).isPrefixOf expr
  · rw [if_pos hp] at h
    have hple : ("\\frac".toList ++ ['{']).length ≤ expr.length :=
      (List.isPrefixOf_iff_prefix.mp hp).length_le
    have h6 : ("\\frac".toList ++ ['{']).length = 6 := by decide
    rw [h6] at hple
    cases hs1 : splitFirst? '}' (expr.drop 6) with
    | none => simp only [hs1] at h; simp at h
    | some p1 =>
        obtain ⟨a1, r1⟩ := p1
        simp only [hs1] at h
        by_cases ha1 : a1 = []
        · simp [ha1] at h
        · rw [if_neg ha1] at h
          cases hr1 : r1 with
          | nil => simp only [hr1] at h; simp at h
          | cons y r2 =>
              simp only [hr1] at h
              by_cases hy : y = '{'
              · rw [if_pos hy] at h
                cases hs2 : splitFirst? '}' r2 with
                | none => simp only [hs2] at h; simp at h
                | some p2 =>
                    obtain ⟨a2, r3⟩ := p2
                    simp only [hs2] at h
                    by_cases ha2 : a2 = []
                    · simp [ha2] at h
                    · simp [ha2] at h
                      obtain ⟨hq1, hq2, hq3⟩ := h
                      subst hq1; subst hq2; subst hq3
                      have hl1 := splitFirst?_len hs1
                      have hl2 := splitFirst?_len hs2
                      have hd6 : (expr.drop 6).length = expr.length - 6 := by
                        simp [List.length_drop]
                      rw [hd6] at hl1
                      rw [hr1] at hl1
                      simp only [List.length_cons] at hl1
                      omega
              · rw [if_neg hy] at h; simp at h
  · rw [if_neg hp] at h; simp at h

theorem parseCells_isSome {p : List Char → Option (List Xml)} :
    ∀ {cells : List (List Char)}, (∀ c ∈ cells, (p c).isSome) →
      (parseCells p cells).isSome := by
  intro cells
  induction cells with
  | nil => intro hc; simp [parseCells]
  | cons c cs ih =>
      intro hc
      have h1 : (p c).isSome := hc c (List.mem_cons_self _ _)
      obtain ⟨v, hv⟩ := Option.isSome_iff_exists.mp h1
      have h2 := ih (fun x hx => hc x (List.mem_cons.mpr (Or.inr hx)))
      obtain ⟨vs, hvs⟩ := Option.isSome_iff_exists.mp h2
      simp [parseCells, hv, hvs]

theorem parseRows_isSome {p : List Char → Option (List Xml)} {B : Nat}
    (hp : ∀ s : List Char, s.length ≤ B → (p s).isSome) :
    ∀ {rows : List (List Char)}, (∀ r ∈ rows, r.length ≤ B) →
      (parseRows p rows).isSome := by
  intro rows
  induction rows with
  | nil => intro hr; simp [parseRows]
  | cons r rs ih =>
      intro hr
      have hcells : (parseCells p ((splitOnChar '\x26' r).map pyStrip)).isSome := by
        refine parseCells_isSome ?hc
        intro c hc
        obtain ⟨c0, hc0, hmap⟩ := List.mem_map.mp hc
        subst hmap
        refine hp _ (le_trans (pyStrip_len_le _) ?h)
        exact le_trans (splitOnChar_mem_len hc0) (hr r (List.mem_cons_self _ _))
      obtain ⟨v, hv⟩ := Option.isSome_iff_exists.mp hcells
      have h2 := ih (fun x hx => hr x (List.mem_cons.mpr (Or.inr hx)))
      obtain ⟨vs, hvs⟩ := Option.isSome_iff_exists.mp h2
      simp [parseRows, hv, hvs]

theorem parseCasesTail_isSome {p : List Char → Option (List Xml)} {B : Nat}
    (hp : ∀ s : List Char, s.length ≤ B → (p s).isSome) :
    ∀ {rows : List (List Char)}, (∀ r ∈ rows, r.length ≤ B) →
      (parseCasesTail p rows).isSome := by
  intro rows
  induction rows with
  | nil => intro hr; simp [parseCasesTail]
  | cons r rs ih =>
      intro hr
      have h1 : (p (caseRowContent r)).isSome :=
        hp _ (le_trans (caseRowContent_len r) (hr r (List.mem_cons_self _ _)))
      obtain ⟨v, hv⟩ := Option.isSome_iff_exists.mp h1
      have h2 := ih (fun x hx => hr x (List.mem_cons.mpr (Or.inr hx)))
      obtain ⟨vs, hvs⟩ := Option.isSome_iff_exists.mp h2
      simp [parseCasesTail, hv, hvs]

theorem parseCasesAll_isSome {p : List Char → Option (List Xml)} {B : Nat}
    (hp : ∀ s : List Char, s.length ≤ B → (p s).isSome) :
    ∀ {rows : List (List Char)}, (∀ r ∈ rows, r.length ≤ B) →
      (parseCasesAll p rows).isSome := by
  intro rows
  cases rows with
  | nil => intro hr; simp [parseCasesAll]
  | cons r rs =>
      intro hr
      have h1 : (p (caseRowContent r)).isSome :=
        hp _ (le_trans (caseRowContent_len r) (hr r (List.mem_cons_self _ _)))
      obtain ⟨v, hv⟩ := Option.isSome_iff_exists.mp h1
      have h2 := parseCasesTail_isSome hp (fun x hx => hr x (List.mem_cons.mpr (Or.inr hx)))
      obtain ⟨vs, hvs⟩ := Option.isSome_iff_exists.mp h2
      simp [parseCasesAll, hv, hvs]

theorem parseTail_isSome {p : List Char → Option (List Xml)} {N : Nat}
    (hp : ∀ s : List Char, s.length < N → (p s).isSome)
    {expr : List Char} (h : expr.length ≤ N) :
    (parseTail p expr).isSome := by
  cases expr with
  | nil => simp [parseTail]
  | cons c tl =>
      simp only [parseTail]
      simp only [List.length_cons] at h
      by_cases hop : opChars.contains c
      · rw [if_pos hop]
        obtain ⟨v, hv⟩ := Option.isSome_iff_exists.mp (hp tl (by omega))
        simp [hv]
      · rw [if_neg hop]
        by_cases htx : txtChar c
        · rw [if_pos htx]
          have hd : ((c :: tl).dropWhile txtChar).length < N := by
            rw [List.dropWhile_cons_of_pos htx]
            have := dropWhile_len_le txtChar tl
            omega
          obtain ⟨v, hv⟩ := Option.isSome_iff_exists.mp (hp _ hd)
          simp [hv]
        · rw [if_neg htx]
          by_cases ht : tl = []
          · rw [if_pos ht]; simp
          · rw [if_neg ht]
            exact hp tl (by omega)

theorem parseStep_isSome {p : List Char → Option (List Xml)} {N : Nat}
    (hp : ∀ s : List Char, s.length < N → (p s).isSome)
    {expr0 : List Char} (h : expr0.length ≤ N) :
    (parseStep p expr0).isSome := by
  have hE : (pyStrip expr0).length ≤ N := le_trans (pyStrip_len_le _) h
  simp only [parseStep]
  set E := pyStrip expr0 with hEdef
  by_cases h0 : E = []
  · rw [if_pos h0]; simp
  rw [if_neg h0]
  cases h1 : func_paren_match? E with
  | some t =>
      obtain ⟨name, inner, rest⟩ := t
      have hb := func_paren_match?_len h1
      obtain ⟨vi, hvi⟩ := Option.isSome_iff_exists.mp (hp inner (by omega))
      obtain ⟨vr, hvr⟩ := Option.isSome_iff_exists.mp (hp rest (by omega))
      simp [hvi, hvr]
  | none =>
  cases h2 : paren_match? E with
  | some t =>
      obtain ⟨inner, rest⟩ := t
      have hb := paren_match?_len h2
      obtain ⟨vi, hvi⟩ := Option.isSome_iff_exists.mp (hp inner (by omega))
      obtain ⟨vr, hvr⟩ := Option.isSome_iff_exists.mp (hp rest (by omega))
      simp only [hvi, hvr]
      split <;> simp [hvi, hvr]
  | none =>
  cases h3 : matrix_match? E with
  | some t =>
      obtain ⟨content, rest⟩ := t
      have hb := matrix_match?_len h3
      have hrows : (parseRows p (envRows content)).isSome := by
        refine parseRows_isSome (B := content.length) ?_ ?_
        · intro s hs; exact hp s (by omega)
        · intro r hr; exact envRows_mem_len hr
      obtain ⟨vm, hvm⟩ := Option.isSome_iff_exists.mp hrows
      obtain ⟨vr, hvr⟩ := Option.isSome_iff_exists.mp (hp rest (by omega))
      simp [hvm, hvr]
  | none =>
  cases h4 : cases_match? E with
  | some t =>
      obtain ⟨content, rest⟩ := t
      have hb := cases_match?_len h4
      have hbody : (parseCasesAll p (envRows content)).isSome := by
        refine parseCasesAll_isSome (B := content.length) ?_ ?_
        · intro s hs; exact hp s (by omega)
        · intro r hr; exact envRows_mem_len hr
      obtain ⟨vb, hvb⟩ := Option.isSome_iff_exists.mp hbody
      obtain ⟨vr, hvr⟩ := Option.isSome_iff_exists.mp (hp rest (by omega))
      simp [hvb, hvr]
  | none =>
  cases h5 : frac_match? E with
  | some t =>
      obtain ⟨g1, g2, rest⟩ := t
      have hb := frac_match?_len h5
      obtain ⟨vn, hvn⟩ := Option.isSome_iff_exists.mp (hp g1 (by omega))
      obtain ⟨vd, hvd⟩ := Option.isSome_iff_exists.mp (hp g2 (by omega))
      obtain ⟨vr, hvr⟩ := Option.isSome_iff_exists.mp (hp rest (by omega))
      simp [hvn, hvd, hvr]
  | none =>
  cases h6 : combined_match? E with
  | some t =>
      obtain ⟨b, sb, sp, rest⟩ := t
      have hb := combined_match?_len h6
      obtain ⟨vr, hvr⟩ := Option.isSome_iff_exists.mp (hp rest (by omega))
      simp [hvr]
  | none =>
  cases h7 : sub_match? E with
  | some t =>
      obtain ⟨b, sb, rest⟩ := t
      have hb := sub_match?_len h7
      obtain ⟨vr, hvr⟩ := Option.isSome_iff_exists.mp (hp rest (by omega))
      simp [hvr]
  | none =>
  cases h8 : sup_match? E with
  | some t =>
      obtain ⟨b, sp, rest⟩ := t
      have hb := sup_match?_len h8
      obtain ⟨vr, hvr⟩ := Option.isSome_iff_exists.mp (hp rest (by omega))
      simp [hvr]
  | none =>
  cases h9 : macroName? E with
  | some t =>
      obtain ⟨nm, rest⟩ := t
      have hb := macroName?_len h9
      cases hg : greekLookup (String.mk nm) with
      | some g =>
          obtain ⟨vr, hvr⟩ := Option.isSome_iff_exists.mp (hp rest (by omega))
          simp [hg, hvr]
      | none =>
          simp only [hg]
          exact parseTail_isSome hp hE
  | none => exact parseTail_isSome hp hE

theorem parse_exprF_isSome :
    ∀ (n : Nat) (s : List Char), s.length < n → (parse_exprF n s).isSome := by
  intro n
  induction n with
  | zero => intro s h; omega
  | succ n ih =>
      intro s h
      show (parseStep (parse_exprF n) s).isSome
      exact parseStep_isSome (fun t ht => ih t ht) (by omega)

theorem parseCells_mono {p q : List Char → Option (List Xml)}
    (hpq : ∀ s r, p s = some r → q s = some r) :
    ∀ {cells : List (List Char)} {out : List Xml},
      parseCells p cells = some out → parseCells q cells = some out := by
  intro cells
  induction cells with
  | nil => intro out h; simpa [parseCells] using h
  | cons c cs ih =>
      intro out h
      simp only [parseCells] at h ⊢
      obtain ⟨v, hv, h⟩ := bind_some_elim h
      obtain ⟨vs, hvs, h⟩ := bind_some_elim h
      rw [hpq _ _ hv, ih hvs]
      simpa using h

theorem parseRows_mono {p q : List Char → Option (List Xml)}
    (hpq : ∀ s r, p s = some r → q s = some r) :
    ∀ {rows : List (List Char)} {out : List Xml},
      parseRows p rows = some out → parseRows q rows = some out := by
  intro rows
  induction rows with
  | nil => intro out h; simpa [parseRows] using h
  | cons r rs ih =>
      intro out h
      simp only [parseRows] at h ⊢
      obtain ⟨v, hv, h⟩ := bind_some_elim h
      obtain ⟨vs, hvs, h⟩ := bind_some_elim h
      rw [parseCells_mono hpq hv, ih hvs]
      simpa using h

theorem parseCasesTail_mono {p q : List Char → Option (List Xml)}
    (hpq : ∀ s r, p s = some r → q s = some r) :
    ∀ {rows : List (List Char)} {out : List Xml},
      parseCasesTail p rows = some out → parseCasesTail q rows = some out := by
  intro rows
  induction rows with
  | nil => intro out h; simpa [parseCasesTail] using h
  | cons r rs ih =>
      intro out h
      simp only [parseCasesTail] at h ⊢
      obtain ⟨v, hv, h⟩ := bind_some_elim h
      obtain ⟨vs, hvs, h⟩ := bind_some_elim h
      rw [hpq _ _ hv, ih hvs]
      simpa using h

theorem parseCasesAll_mono {p q : List Char → Option (List Xml)}
    (hpq : ∀ s r, p s = some r → q s = some r) :
    ∀ {rows : List (List Char)} {out : List Xml},
      parseCasesAll p rows = some out → parseCasesAll q rows = some out := by
  intro rows
  cases rows with
  | nil => intro out h; simpa [parseCasesAll] using h
  | cons r rs =>
      intro out h
      simp only [parseCasesAll] at h ⊢
      obtain ⟨v, hv, h⟩ := bind_some_elim h
      obtain ⟨vs, hvs, h⟩ := bind_some_elim h
      rw [hpq _ _ hv, parseCasesTail_mono hpq hvs]
      simpa using h

theorem parseTail_mono {p q : List Char → Option (List Xml)}
    (hpq : ∀ s r, p s = some r → q s = some r)
    {expr : List Char} {out : List Xml}
    (h : parseTail p expr = some out) : parseTail q expr = some out := by
  cases expr with
  | nil => simpa [parseTail] using h
  | cons c tl =>
      simp only [parseTail] at h ⊢
      by_cases hop : opChars.contains c
      · rw [if_pos hop] at h ⊢
        obtain ⟨v, hv, h⟩ := bind_some_elim h
        rw [hpq _ _ hv]
        simpa using h
      · rw [if_neg hop] at h ⊢
        by_cases htx : txtChar c
        · rw [if_pos htx] at h ⊢
          obtain ⟨v, hv, h⟩ := bind_some_elim h
          rw [hpq _ _ hv]
          simpa using h
        · rw [if_neg htx] at h ⊢
          by_cases ht : tl = []
          · rw [if_pos ht] at h ⊢; exact h
          · rw [if_neg ht] at h ⊢; exact hpq _ _ h

theorem parseStep_mono {p q : List Char → Option (List Xml)}
    (hpq : ∀ s r, p s = some r → q s = some r)
    {expr0 : List Char} {res : List Xml}
    (h : parseStep p expr0 = some res) : parseStep q expr0 = some res := by
  simp only [parseStep] at h ⊢
  set E := pyStrip expr0 with hEdef
  by_cases h0 : E = []
  · rw [if_pos h0] at h ⊢; exact h
  rw [if_neg h0] at h ⊢
  cases h1 : func_paren_match? E with
  | some t =>
      obtain ⟨name, inner, rest⟩ := t
      simp only [h1] at h ⊢
      obtain ⟨vi, hvi, h⟩ := bind_some_elim h
      obtain ⟨vr, hvr, h⟩ := bind_some_elim h
      rw [hpq _ _ hvi, hpq _ _ hvr]
      simpa using h
  | none =>
  simp only [h1] at h ⊢
  cases h2 : paren_match? E with
  | some t =>
      obtain ⟨inner, rest⟩ := t
      simp only [h2] at h ⊢
      by_cases hc : containsSub ("\\frac".toList) inner || inner.contains '\\'
      · simp only [hc] at h ⊢
        obtain ⟨vi, hvi, h⟩ := bind_some_elim h
        obtain ⟨vr, hvr, h⟩ := bind_some_elim h
        rw [hpq _ _ hvi, hpq _ _ hvr]
        simpa using h
      · simp only [Bool.not_eq_true] at hc
        simp only [hc] at h ⊢
        obtain ⟨vi, hvi, h⟩ := bind_some_elim h
        obtain ⟨vr, hvr, h⟩ := bind_some_elim h
        rw [hpq _ _ hvi, hpq _ _ hvr]
        simpa using h
  | none =>
  simp only [h2] at h ⊢
  cases h3 : matrix_match? E with
  | some t =>
      obtain ⟨content, rest⟩ := t
      simp only [h3] at h ⊢
      obtain ⟨vm, hvm, h⟩ := bind_some_elim h
      obtain ⟨vr, hvr, h⟩ := bind_some_elim h
      rw [parseRows_mono hpq hvm, hpq _ _ hvr]
      simpa using h
  | none =>
  simp only [h3] at h ⊢
  cases h4 : cases_match? E with
  | some t =>
      obtain ⟨content, rest⟩ := t
      simp only [h4] at h ⊢
      obtain ⟨vb, hvb, h⟩ := bind_some_elim h
      obtain ⟨vr, hvr, h⟩ := bind_some_elim h
      rw [parseCasesAll_mono hpq hvb, hpq _ _ hvr]
      simpa using h
  | none =>
  simp only [h4] at h ⊢
  cases h5 : frac_match? E with
  | some t =>
      obtain ⟨g1, g2, rest⟩ := t
      simp only [h5] at h ⊢
      obtain ⟨vn, hvn, h⟩ := bind_some_elim h
      obtain ⟨vd, hvd, h⟩ := bind_some_elim h
      obtain ⟨vr, hvr, h⟩ := bind_some_elim h
      rw [hpq _ _ hvn, hpq _ _ hvd, hpq _ _ hvr]
      simpa using h
  | none =>
  simp only [h5] at h ⊢
  cases h6 : combined_match? E with
  | some t =>
      obtain ⟨b, sb, sp, rest⟩ := t
      simp only [h6] at h ⊢
      obtain ⟨vr, hvr, h⟩ := bind_some_elim h
      rw [hpq _ _ hvr]
      simpa using h
  | none =>
  simp only [h6] at h ⊢
  cases h7 : sub_match? E with
  | some t =>
      obtain ⟨b, sb, rest⟩ := t
      simp only [h7] at h ⊢
      obtain ⟨vr, hvr, h⟩ := bind_some_elim h
      rw [hpq _ _ hvr]
      simpa using h
  | none =>
  simp only [h7] at h ⊢
  cases h8 : sup_match? E with
  | some t =>
      obtain ⟨b, sp, rest⟩ := t
      simp only [h8] at h ⊢
      obtain ⟨vr, hvr, h⟩ := bind_some_elim h
      rw [hpq _ _ hvr]
      simpa using h
  | none =>
  simp only [h8] at h ⊢
  cases h9 : macroName? E with
  | some t =>
      obtain ⟨nm, rest⟩ := t
      simp only [h9] at h ⊢
      cases hg : greekLookup (String.mk nm) with
      | some g =>
          simp only [hg] at h ⊢
          obtain ⟨vr, hvr, h⟩ := bind_some_elim h
          rw [hpq _ _ hvr]
          simpa using h
      | none =>
          simp only [hg] at h ⊢
          exact parseTail_mono hpq h
  | none =>
  simp only [h9] at h ⊢
  exact parseTail_mono hpq h

theorem parse_exprF_mono :
    ∀ {n m : Nat}, n ≤ m → ∀ {s : List Char} {r : List Xml},
      parse_exprF n s = some r → parse_exprF m s = some r := by
  intro n
  induction n with
  | zero => intro m _ s r h; simp [parse_exprF] at h
  | succ n ih =>
      intro m hm s r h
      cases m with
      | zero => omega
      | succ m2 =>
          have hn : n ≤ m2 := by omega
          exact parseStep_mono (fun s r hsr => ih hn hsr) h

theorem parse_exprF_complete {n : Nat} {s : List Char} (h : s.length < n) :
    parse_exprF n s = some (parse_expr s) := by
  obtain ⟨r, hr⟩ := Option.isSome_iff_exists.mp (parse_exprF_isSome (s.length + 1) s (by omega))
  have hpe : parse_expr s = r := by simp [parse_expr, hr]
  rw [hpe]
  exact parse_exprF_mono (by omega) hr

/-! ## Marker-discipline closure lemmas -/

example (t h : String) : markerNode (math_run t h) = true := rfl

example (t h : String) : isFrac (math_run t h) = false := rfl

example : markerNode ctrl_pr = true := rfl

theorem markerForest_cons {x : Xml} {l : List Xml} :
    markerForest (x :: l) = true ↔
      (markerNode x = true ∧ (isFrac x = false ∨ ∃ y tl, l = y :: tl ∧ isCtrlPr y = true)
        ∧ markerForest l = true) := by
  cases l with
  | nil =>
      simp only [markerForest]
      constructor
      · intro h
        simp only [Bool.and_eq_true, Bool.not_eq_true'] at h
        exact ⟨h.1, Or.inl h.2, by trivial⟩
      · intro hc
        obtain ⟨h1, h2, h3⟩ := hc
        rcases h2 with h2 | ⟨y, tl, hy, hyc⟩
        · simp [h1, h2]
        · simp at hy
  | cons y tl =>
      simp only [markerForest]
      constructor
      · intro h
        simp only [Bool.and_eq_true, Bool.or_eq_true, Bool.not_eq_true'] at h
        refine ⟨h.1.1, ?_, h.2⟩
        rcases h.1.2 with h2 | h2
        · exact Or.inl h2
        · exact Or.inr ⟨y, tl, rfl, h2⟩
      · intro hc
        obtain ⟨h1, h2, h3⟩ := hc
        simp only [Bool.and_eq_true, Bool.or_eq_true, Bool.not_eq_true']
        refine ⟨⟨h1, ?_⟩, h3⟩
        rcases h2 with h2 | ⟨y2, tl2, hy, hyc⟩
        · exact Or.inl h2
        · injection hy with hy1 hy2
          subst hy1
          exact Or.inr hyc

theorem markerForest_append :
    ∀ {a b : List Xml}, markerForest a = true → markerForest b = true →
      markerForest (a ++ b) = true := by
  intro a
  induction a with
  | nil => intro b _ hb; simpa
  | cons x a2 ih =>
      intro b ha hb
      rw [List.cons_append]
      rw [markerForest_cons] at ha
      obtain ⟨h1, h2, h3⟩ := ha
      rw [markerForest_cons]
      refine ⟨h1, ?_, ih h3 hb⟩
      rcases h2 with h2 | ⟨y, tl, hy, hyc⟩
      · exact Or.inl h2
      · subst hy
        exact Or.inr ⟨y, tl ++ b, rfl, hyc⟩

theorem markerForest_single {x : Xml} (h1 : markerNode x = true) (h2 : isFrac x = false) :
    markerForest [x] = true := by
  simp [markerForest, h1, h2]

theorem lastIsCtrl_concat (l : List Xml) : lastIsCtrl (l ++ [ctrl_pr]) = true := by
  unfold lastIsCtrl
  rw [List.getLast?_concat]
  rfl

theorem markerNode_run (t h : String) : markerNode (math_run t h) = true := rfl

theorem markerNode_resolve (s : String) : markerNode (resolve_run s) = true := by
  unfold resolve_run
  cases greekLookup s <;> rfl

theorem isFrac_resolve (s : String) : isFrac (resolve_run s) = false := by
  unfold resolve_run
  cases greekLookup s <;> rfl

theorem markerNode_eElem {inner : List Xml} (h : markerForest inner = true) :
    markerNode (eElem inner) = true := by
  unfold eElem markerNode
  rw [Bool.and_eq_true]
  constructor
  · rw [lastIsCtrl_concat]
    simp
  · exact markerForest_append h (by rfl)

theorem isFrac_eElem (inner : List Xml) : isFrac (eElem inner) = false := rfl

theorem markerNode_dElem {b e : String} {inner : List Xml} (h : markerForest inner = true) :
    markerNode (dElem b e inner) = true := by
  unfold dElem markerNode
  rw [Bool.and_eq_true]
  constructor
  · rfl
  · rw [markerForest_cons]
    refine ⟨by rfl, Or.inl (by rfl), ?_⟩
    rw [markerForest_cons]
    refine ⟨markerNode_eElem h, Or.inl (isFrac_eElem inner), by rfl⟩

theorem isFrac_dElem (b e : String) (inner : List Xml) : isFrac (dElem b e inner) = false := rfl

theorem markerNode_fElem {num den : List Xml}
    (hn : markerForest num = true) (hd : markerForest den = true) :
    markerNode (fElem num den) = true := by
  unfold fElem markerNode
  rw [Bool.and_eq_true]
  constructor
  · rfl
  · rw [markerForest_cons]
    refine ⟨by rfl, Or.inl (by rfl), ?_⟩
    rw [markerForest_cons]
    refine ⟨?_, Or.inl (by rfl), ?_⟩
    · unfold markerNode
      rw [Bool.and_eq_true]
      exact ⟨by rw [lastIsCtrl_concat]; simp, markerForest_append hn (by rfl)⟩
    · refine markerForest_single ?_ (by rfl)
      unfold markerNode
      rw [Bool.and_eq_true]
      exact ⟨by rw [lastIsCtrl_concat]; simp, markerForest_append hd (by rfl)⟩

theorem markerNode_scriptPart (tag : String) (s : String) :
    markerNode (scriptPart tag s) = true := by
  unfold scriptPart markerNode
  rw [Bool.and_eq_true]
  constructor
  · have hl : lastIsCtrl [resolve_run s, ctrl_pr] = true := rfl
    rw [hl, Bool.or_true]
  · rw [markerForest_cons]
    exact ⟨markerNode_resolve s, Or.inl (isFrac_resolve s), markerForest_single (by rfl) (by rfl)⟩

theorem markerNode_sSubSup (b sb sp : String) : markerNode (sSubSupElem b sb sp) = true := by
  unfold sSubSupElem markerNode
  rw [Bool.and_eq_true]
  refine ⟨by rfl, ?_⟩
  rw [markerForest_cons]
  refine ⟨by rfl, Or.inl (by rfl), ?_⟩
  rw [markerForest_cons]
  refine ⟨markerNode_scriptPart _ _, Or.inl (by rfl), ?_⟩
  rw [markerForest_cons]
  refine ⟨markerNode_scriptPart _ _, Or.inl (by rfl), ?_⟩
  rw [markerForest_cons]
  refine ⟨markerNode_scriptPart _ _, Or.inl (by rfl), ?_⟩
  exact markerForest_single (by rfl) (by rfl)

theorem markerNode_sSub (b sb : String) : markerNode (sSubElem b sb) = true := by
  unfold sSubElem markerNode
  rw [Bool.and_eq_true]
  refine ⟨by rfl, ?_⟩
  rw [markerForest_cons]
  refine ⟨by rfl, Or.inl (by rfl), ?_⟩
  rw [markerForest_cons]
  refine ⟨markerNode_scriptPart _ _, Or.inl (by rfl), ?_⟩
  rw [markerForest_cons]
  refine ⟨markerNode_scriptPart _ _, Or.inl (by rfl), ?_⟩
  exact markerForest_single (by rfl) (by rfl)

theorem markerNode_sSup (b sp : String) : markerNode (sSupElem b sp) = true := by
  unfold sSupElem markerNode
  rw [Bool.and_eq_true]
  refine ⟨by rfl, ?_⟩
  rw [markerForest_cons]
  refine ⟨by rfl, Or.inl (by rfl), ?_⟩
  rw [markerForest_cons]
  refine ⟨markerNode_scriptPart _ _, Or.inl (by rfl), ?_⟩
  rw [markerForest_cons]
  refine ⟨markerNode_scriptPart _ _, Or.inl (by rfl), ?_⟩
  exact markerForest_single (by rfl) (by rfl)

theorem markerNode_mrElem {cells : List Xml} (h : markerForest cells = true) :
    markerNode (mrElem cells) = true := by
  unfold mrElem markerNode
  rw [Bool.and_eq_true]
  exact ⟨by rfl, h⟩

theorem markerNode_mElem {rows : List Xml} (h : markerForest rows = true) :
    markerNode (mElem rows) = true := by
  unfold mElem markerNode
  rw [Bool.and_eq_true]
  constructor
  · show (true || lastIsCtrl (mPrElem :: rows)) = true
    rw [Bool.true_or]
  · have h1 : markerForest [mPrElem] = true := by rfl
    exact markerForest_append h1 h

theorem parseCells_marker {p : List Char → Option (List Xml)}
    (hp : ∀ s r, p s = some r → markerForest r = true) :
    ∀ {cells : List (List Char)} {out : List Xml},
      parseCells p cells = some out → markerForest out = true := by
  intro cells
  induction cells with
  | nil =>
      intro out h
      simp [parseCells] at h
      subst h; rfl
  | cons c cs ih =>
      intro out h
      simp only [parseCells] at h
      obtain ⟨v, hv, h⟩ := bind_some_elim h
      obtain ⟨vs, hvs, h⟩ := bind_some_elim h
      simp only [pure, Option.some.injEq] at h
      subst h
      rw [markerForest_cons]
      exact ⟨markerNode_eElem (hp _ _ hv), Or.inl (isFrac_eElem _), ih hvs⟩

theorem parseRows_marker {p : List Char → Option (List Xml)}
    (hp : ∀ s r, p s = some r → markerForest r = true) :
    ∀ {rows : List (List Char)} {out : List Xml},
      parseRows p rows = some out → markerForest out = true := by
  intro rows
  induction rows with
  | nil =>
      intro out h
      simp [parseRows] at h
      subst h; rfl
  | cons r rs ih =>
      intro out h
      simp only [parseRows] at h
      obtain ⟨v, hv, h⟩ := bind_some_elim h
      obtain ⟨vs, hvs, h⟩ := bind_some_elim h
      simp only [pure, Option.some.injEq] at h
      subst h
      rw [markerForest_cons]
      exact ⟨markerNode_mrElem (parseCells_marker hp hv), Or.inl (by rfl), ih hvs⟩

theorem parseCasesTail_marker {p : List Char → Option (List Xml)}
    (hp : ∀ s r, p s = some r → markerForest r = true) :
    ∀ {rows : List (List Char)} {out : List Xml},
      parseCasesTail p rows = some out → markerForest out = true := by
  intro rows
  induction rows with
  | nil =>
      intro out h
      simp [parseCasesTail] at h
      subst h; rfl
  | cons r rs ih =>
      intro out h
      simp only [parseCasesTail] at h
      obtain ⟨v, hv, h⟩ := bind_some_elim h
      obtain ⟨vs, hvs, h⟩ := bind_some_elim h
      simp only [pure, Option.some.injEq] at h
      subst h
      rw [markerForest_cons]
      exact ⟨markerNode_run _ _, Or.inl (by rfl),
        markerForest_append (hp _ _ hv) (ih hvs)⟩

theorem parseCasesAll_marker {p : List Char → Option (List Xml)}
    (hp : ∀ s r, p s = some r → markerForest r = true) :
    ∀ {rows : List (List Char)} {out : List Xml},
      parseCasesAll p rows = some out → markerForest out = true := by
  intro rows
  cases rows with
  | nil =>
      intro out h
      simp [parseCasesAll] at h
      subst h; rfl
  | cons r rs =>
      intro out h
      simp only [parseCasesAll] at h
      obtain ⟨v, hv, h⟩ := bind_some_elim h
      obtain ⟨vs, hvs, h⟩ := bind_some_elim h
      simp only [pure, Option.some.injEq] at h
      subst h
      exact markerForest_append (hp _ _ hv) (parseCasesTail_marker hp hvs)

theorem parseTail_marker {p : List Char → Option (List Xml)}
    (hp : ∀ s r, p s = some r → markerForest r = true)
    {expr : List Char} {out : List Xml}
    (h : parseTail p expr = some out) : markerForest out = true := by
  cases expr with
  | nil =>
      simp [parseTail] at h
      subst h; rfl
  | cons c tl =>
      simp only [parseTail] at h
      by_cases hop : opChars.contains c
      · rw [if_pos hop] at h
        obtain ⟨v, hv, h⟩ := bind_some_elim h
        simp only [pure, Option.some.injEq] at h
        subst h
        rw [markerForest_cons]
        exact ⟨markerNode_run _ _, Or.inl (by rfl), hp _ _ hv⟩
      · rw [if_neg hop] at h
        by_cases htx : txtChar c
        · rw [if_pos htx] at h
          obtain ⟨v, hv, h⟩ := bind_some_elim h
          simp only [pure, Option.some.injEq] at h
          subst h
          rw [markerForest_cons]
          exact ⟨markerNode_run _ _, Or.inl (by rfl), hp _ _ hv⟩
        · rw [if_neg htx] at h
          by_cases ht : tl = []
          · rw [if_pos ht] at h
            simp at h
            subst h; rfl
          · rw [if_neg ht] at h
            exact hp _ _ h

theorem parseStep_marker {p : List Char → Option (List Xml)}
    (hp : ∀ s r, p s = some r → markerForest r = true)
    {expr0 : List Char} {res : List Xml}
    (h : parseStep p expr0 = some res) : markerForest res = true := by
  simp only [parseStep] at h
  set E := pyStrip expr0 with hEdef
  by_cases h0 : E = []
  · rw [if_pos h0] at h
    simp at h
    subst h; rfl
  rw [if_neg h0] at h
  cases h1 : func_paren_match? E with
  | some t =>
      obtain ⟨name, inner, rest⟩ := t
      simp only [h1] at h
      obtain ⟨vi, hvi, h⟩ := bind_some_elim h
      obtain ⟨vr, hvr, h⟩ := bind_some_elim h
      simp only [pure, Option.some.injEq] at h
      subst h
      rw [markerForest_cons]
      refine ⟨markerNode_run _ _, Or.inl (by rfl), ?_⟩
      rw [markerForest_cons]
      exact ⟨markerNode_dElem (hp _ _ hvi), Or.inl (isFrac_dElem _ _ _), hp _ _ hvr⟩
  | none =>
  simp only [h1] at h
  cases h2 : paren_match? E with
  | some t =>
      obtain ⟨inner, rest⟩ := t
      simp only [h2] at h
      by_cases hc : containsSub ("\\frac".toList) inner || inner.contains '\\'
      · simp only [hc] at h
        obtain ⟨vi, hvi, h⟩ := bind_some_elim h
        obtain ⟨vr, hvr, h⟩ := bind_some_elim h
        simp only [pure, Option.some.injEq] at h
        subst h
        rw [markerForest_cons]
        exact ⟨markerNode_dElem (hp _ _ hvi), Or.inl (isFrac_dElem _ _ _), hp _ _ hvr⟩
      · simp only [Bool.not_eq_true] at hc
        simp only [hc] at h
        obtain ⟨vi, hvi, h⟩ := bind_some_elim h
        obtain ⟨vr, hvr, h⟩ := bind_some_elim h
        simp only [pure, Option.some.injEq] at h
        subst h
        rw [markerForest_cons]
        refine ⟨markerNode_run _ _, Or.inl (by rfl), ?_⟩
        refine markerForest_append (hp _ _ hvi) ?_
        rw [markerForest_cons]
        exact ⟨markerNode_run _ _, Or.inl (by rfl), hp _ _ hvr⟩
  | none =>
  simp only [h2] at h
  cases h3 : matrix_match? E with
  | some t =>
      obtain ⟨content, rest⟩ := t
      simp only [h3] at h
      obtain ⟨vm, hvm, h⟩ := bind_some_elim h
      obtain ⟨vr, hvr, h⟩ := bind_some_elim h
      simp only [pure, Option.some.injEq] at h
      subst h
      rw [markerForest_cons]
      refine ⟨?_, Or.inl (isFrac_dElem _ _ _), hp _ _ hvr⟩
      refine markerNode_dElem ?_
      refine markerForest_single (markerNode_mElem (parseRows_marker hp hvm)) (by rfl)
  | none =>
  simp only [h3] at h
  cases h4 : cases_match? E with
  | some t =>
      obtain ⟨content, rest⟩ := t
      simp only [h4] at h
      obtain ⟨vb, hvb, h⟩ := bind_some_elim h
      obtain ⟨vr, hvr, h⟩ := bind_some_elim h
      simp only [pure, Option.some.injEq] at h
      subst h
      rw [markerForest_cons]
      exact ⟨markerNode_dElem (parseCasesAll_marker hp hvb),
        Or.inl (isFrac_dElem _ _ _), hp _ _ hvr⟩
  | none =>
  simp only [h4] at h
  cases h5 : frac_match? E with
  | some t =>
      obtain ⟨g1, g2, rest⟩ := t
      simp only [h5] at h
      obtain ⟨vn, hvn, h⟩ := bind_some_elim h
      obtain ⟨vd, hvd, h⟩ := bind_some_elim h
      obtain ⟨vr, hvr, h⟩ := bind_some_elim h
      simp only [pure, Option.some.injEq] at h
      subst h
      rw [markerForest_cons]
      refine ⟨markerNode_fElem (hp _ _ hvn) (hp _ _ hvd),
        Or.inr ⟨ctrl_pr, vr, rfl, by rfl⟩, ?_⟩
      rw [markerForest_cons]
      exact ⟨by rfl, Or.inl (by rfl), hp _ _ hvr⟩
  | none =>
  simp only [h5] at h
  cases h6 : combined_match? E with
  | some t =>
      obtain ⟨b, sb, sp, rest⟩ := t
      simp only [h6] at h
      obtain ⟨vr, hvr, h⟩ := bind_some_elim h
      simp only [pure, Option.some.injEq] at h
      subst h
      rw [markerForest_cons]
      exact ⟨markerNode_sSubSup _ _ _, Or.inl (by rfl), hp _ _ hvr⟩
  | none =>
  simp only [h6] at h
  cases h7 : sub_match? E with
  | some t =>
      obtain ⟨b, sb, rest⟩ := t
      simp only [h7] at h
      obtain ⟨vr, hvr, h⟩ := bind_some_elim h
      simp only [pure, Option.some.injEq] at h
      subst h
      rw [markerForest_cons]
      exact ⟨markerNode_sSub _ _, Or.inl (by rfl), hp _ _ hvr⟩
  | none =>
  simp only [h7] at h
  cases h8 : sup_match? E with
  | some t =>
      obtain ⟨b, sp, rest⟩ := t
      simp only [h8] at h
      obtain ⟨vr, hvr, h⟩ := bind_some_elim h
      simp only [pure, Option.some.injEq] at h
      subst h
      rw [markerForest_cons]
      exact ⟨markerNode_sSup _ _, Or.inl (by rfl), hp _ _ hvr⟩
  | none =>
  simp only [h8] at h
  cases h9 : macroName? E with
  | some t =>
      obtain ⟨nm, rest⟩ := t
      simp only [h9] at h
      cases hg : greekLookup (String.mk nm) with
      | some g =>
          simp only [hg] at h
          obtain ⟨vr, hvr, h⟩ := bind_some_elim h
          simp only [pure, Option.some.injEq] at h
          subst h
          rw [markerForest_cons]
          exact ⟨markerNode_run _ _, Or.inl (by rfl), hp _ _ hvr⟩
      | none =>
          simp only [hg] at h
          exact parseTail_marker hp h
  | none =>
  simp only [h9] at h
  exact parseTail_marker hp h

theorem parse_exprF_marker :
    ∀ {n : Nat} {s : List Char} {r : List Xml},
      parse_exprF n s = some r → markerForest r = true := by
  intro n
  induction n with
  | zero => intro s r h; simp [parse_exprF] at h
  | succ n ih =>
      intro s r h
      exact parseStep_marker (fun t rt hrt => ih hrt) h

/-! ## Matrix-properties discipline -/

theorem mcolNodeP_of_ne {t : String} {a : List (String × String)} {x : Option String}
    {ch : List Xml} (ht : t ≠ "m:m") (h : mcolForestP ch) :
    mcolNodeP (.elem t a x ch) :=
  ⟨fun he => absurd he ht, h⟩

theorem mcolForestP_append :
    ∀ {a b : List Xml}, mcolForestP a → mcolForestP b → mcolForestP (a ++ b) := by
  intro a
  induction a with
  | nil => intro b _ hb; simpa
  | cons x xs ih =>
      intro b ha hb
      obtain ⟨h1, h2⟩ := ha
      exact ⟨h1, ih h2 hb⟩

theorem mcolP_cambria (h : String) : mcolNodeP (cambriaFonts h) :=
  mcolNodeP_of_ne (by decide) trivial

theorem mcolP_ctrl : mcolNodeP ctrl_pr :=
  mcolNodeP_of_ne (by decide) ⟨mcolNodeP_of_ne (by decide) ⟨mcolP_cambria _, trivial⟩, trivial⟩

theorem mcolP_run (t h : String) : mcolNodeP (math_run t h) :=
  mcolNodeP_of_ne (by decide)
    ⟨mcolNodeP_of_ne (by decide) ⟨mcolNodeP_of_ne (by decide) trivial, trivial⟩,
     mcolNodeP_of_ne (by decide) ⟨mcolP_cambria _, trivial⟩,
     mcolNodeP_of_ne (by decide) trivial, trivial⟩

theorem mcolP_resolve (s : String) : mcolNodeP (resolve_run s) := by
  unfold resolve_run
  cases greekLookup s with
  | some g => exact mcolP_run _ _
  | none => exact mcolP_run _ _

theorem mcolP_mPr : mcolNodeP mPrElem :=
  mcolNodeP_of_ne (by decide)
    ⟨mcolNodeP_of_ne (by decide)
       ⟨mcolNodeP_of_ne (by decide)
          ⟨mcolNodeP_of_ne (by decide)
             ⟨mcolNodeP_of_ne (by decide) trivial,
              mcolNodeP_of_ne (by decide) trivial, trivial⟩, trivial⟩, trivial⟩,
     mcolNodeP_of_ne (by decide) trivial, mcolP_ctrl, trivial⟩

theorem mcolP_eElem {inner : List Xml} (h : mcolForestP inner) : mcolNodeP (eElem inner) :=
  mcolNodeP_of_ne (by decide) (mcolForestP_append h ⟨mcolP_ctrl, trivial⟩)

theorem mcolP_dPr (b e : String) : mcolNodeP (dPrElem b e) :=
  mcolNodeP_of_ne (by decide)
    ⟨mcolNodeP_of_ne (by decide) trivial, mcolNodeP_of_ne (by decide) trivial,
     mcolP_ctrl, trivial⟩

theorem mcolP_dElem {b e : String} {inner : List Xml} (h : mcolForestP inner) :
    mcolNodeP (dElem b e inner) :=
  mcolNodeP_of_ne (by decide) ⟨mcolP_dPr b e, mcolP_eElem h, mcolP_ctrl, trivial⟩

theorem mcolP_fElem {num den : List Xml} (hn : mcolForestP num) (hd : mcolForestP den) :
    mcolNodeP (fElem num den) :=
  mcolNodeP_of_ne (by decide)
    ⟨mcolNodeP_of_ne (by decide) ⟨mcolP_ctrl, trivial⟩,
     mcolNodeP_of_ne (by decide) (mcolForestP_append hn ⟨mcolP_ctrl, trivial⟩),
     mcolNodeP_of_ne (by decide) (mcolForestP_append hd ⟨mcolP_ctrl, trivial⟩), trivial⟩

theorem mcolP_scriptPart (tag s : String) (ht : tag ≠ "m:m") : mcolNodeP (scriptPart tag s) :=
  mcolNodeP_of_ne ht ⟨mcolP_resolve s, mcolP_ctrl, trivial⟩

theorem mcolP_sSubSup (b sb sp : String) : mcolNodeP (sSubSupElem b sb sp) :=
  mcolNodeP_of_ne (by decide)
    ⟨mcolNodeP_of_ne (by decide) ⟨mcolP_ctrl, trivial⟩,
     mcolP_scriptPart _ _ (by decide), mcolP_scriptPart _ _ (by decide),
     mcolP_scriptPart _ _ (by decide), mcolP_ctrl, trivial⟩

theorem mcolP_sSub (b sb : String) : mcolNodeP (sSubElem b sb) :=
  mcolNodeP_of_ne (by decide)
    ⟨mcolNodeP_of_ne (by decide) ⟨mcolP_ctrl, trivial⟩,
     mcolP_scriptPart _ _ (by decide), mcolP_scriptPart _ _ (by decide), mcolP_ctrl, trivial⟩

theorem mcolP_sSup (b sp : String) : mcolNodeP (sSupElem b sp) :=
  mcolNodeP_of_ne (by decide)
    ⟨mcolNodeP_of_ne (by decide) ⟨mcolP_ctrl, trivial⟩,
     mcolP_scriptPart _ _ (by decide), mcolP_scriptPart _ _ (by decide), mcolP_ctrl, trivial⟩

theorem mcolP_mrElem {cells : List Xml} (h : mcolForestP cells) : mcolNodeP (mrElem cells) :=
  mcolNodeP_of_ne (by decide) h

theorem mcolP_mElem {rows : List Xml} (h : mcolForestP rows) : mcolNodeP (mElem rows) :=
  ⟨fun _ => ⟨rows, rfl⟩, mcolP_mPr, h⟩

theorem parseCells_mcol {p : List Char → Option (List Xml)}
    (hp : ∀ s r, p s = some r → mcolForestP r) :
    ∀ {cells : List (List Char)} {out : List Xml},
      parseCells p cells = some out → mcolForestP out := by
  intro cells
  induction cells with
  | nil =>
      intro out h
      simp [parseCells] at h
      subst h; trivial
  | cons c cs ih =>
      intro out h
      simp only [parseCells] at h
      obtain ⟨v, hv, h⟩ := bind_some_elim h
      obtain ⟨vs, hvs, h⟩ := bind_some_elim h
      simp only [pure, Option.some.injEq] at h
      subst h
      exact ⟨mcolP_eElem (hp _ _ hv), ih hvs⟩

theorem parseRows_mcol {p : List Char → Option (List Xml)}
    (hp : ∀ s r, p s = some r → mcolForestP r) :
    ∀ {rows : List (List Char)} {out : List Xml},
      parseRows p rows = some out → mcolForestP out := by
  intro rows
  induction rows with
  | nil =>
      intro out h
      simp [parseRows] at h
      subst h; trivial
  | cons r rs ih =>
      intro out h
      simp only [parseRows] at h
      obtain ⟨v, hv, h⟩ := bind_some_elim h
      obtain ⟨vs, hvs, h⟩ := bind_some_elim h
      simp only [pure, Option.some.injEq] at h
      subst h
      exact ⟨mcolP_mrElem (parseCells_mcol hp hv), ih hvs⟩

theorem parseCasesTail_mcol {p : List Char → Option (List Xml)}
    (hp : ∀ s r, p s = some r → mcolForestP r) :
    ∀ {rows : List (List Char)} {out : List Xml},
      parseCasesTail p rows = some out → mcolForestP out := by
  intro rows
  induction rows with
  | nil =>
      intro out h
      simp [parseCasesTail] at h
      subst h; trivial
  | cons r rs ih =>
      intro out h
      simp only [parseCasesTail] at h
      obtain ⟨v, hv, h⟩ := bind_some_elim h
      obtain ⟨vs, hvs, h⟩ := bind_some_elim h
      simp only [pure, Option.some.injEq] at h
      subst h
      exact ⟨mcolP_run _ _, mcolForestP_append (hp _ _ hv) (ih hvs)⟩

theorem parseCasesAll_mcol {p : List Char → Option (List Xml)}
    (hp : ∀ s r, p s = some r → mcolForestP r) :
    ∀ {rows : List (List Char)} {out : List Xml},
      parseCasesAll p rows = some out → mcolForestP out := by
  intro rows
  cases rows with
  | nil =>
      intro out h
      simp [parseCasesAll] at h
      subst h; trivial
  | cons r rs =>
      intro out h
      simp only [parseCasesAll] at h
      obtain ⟨v, hv, h⟩ := bind_some_elim h
      obtain ⟨vs, hvs, h⟩ := bind_some_elim h
      simp only [pure, Option.some.injEq] at h
      subst h
      exact mcolForestP_append (hp _ _ hv) (parseCasesTail_mcol hp hvs)

theorem parseTail_mcol {p : List Char → Option (List Xml)}
    (hp : ∀ s r, p s = some r → mcolForestP r)
    {expr : List Char} {out : List Xml}
    (h : parseTail p expr = some out) : mcolForestP out := by
  cases expr with
  | nil =>
      simp [parseTail] at h
      subst h; trivial
  | cons c tl =>
      simp only [parseTail] at h
      by_cases hop : opChars.contains c
      · rw [if_pos hop] at h
        obtain ⟨v, hv, h⟩ := bind_some_elim h
        simp only [pure, Option.some.injEq] at h
        subst h
        exact ⟨mcolP_run _ _, hp _ _ hv⟩
      · rw [if_neg hop] at h
        by_cases htx : txtChar c
        · rw [if_pos htx] at h
          obtain ⟨v, hv, h⟩ := bind_some_elim h
          simp only [pure, Option.some.injEq] at h
          subst h
          exact ⟨mcolP_run _ _, hp _ _ hv⟩
        · rw [if_neg htx] at h
          by_cases ht : tl = []
          · rw [if_pos ht] at h
            simp at h
            subst h; trivial
          · rw [if_neg ht] at h
            exact hp _ _ h

theorem parseStep_mcol {p : List Char → Option (List Xml)}
    (hp : ∀ s r, p s = some r → mcolForestP r)
    {expr0 : List Char} {res : List Xml}
    (h : parseStep p expr0 = some res) : mcolForestP res := by
  simp only [parseStep] at h
  set E := pyStrip expr0 with hEdef
  by_cases h0 : E = []
  · rw [if_pos h0] at h
    simp at h
    subst h; trivial
  rw [if_neg h0] at h
  cases h1 : func_paren_match? E with
  | some t =>
      obtain ⟨name, inner, rest⟩ := t
      simp only [h1] at h
      obtain ⟨vi, hvi, h⟩ := bind_some_elim h
      obtain ⟨vr, hvr, h⟩ := bind_some_elim h
      simp only [pure, Option.some.injEq] at h
      subst h
      exact ⟨mcolP_run _ _, mcolP_dElem (hp _ _ hvi), hp _ _ hvr⟩
  | none =>
  simp only [h1] at h
  cases h2 : paren_match? E with
  | some t =>
      obtain ⟨inner, rest⟩ := t
      simp only [h2] at h
      by_cases hc : containsSub ("\\frac".toList) inner || inner.contains '\\'
      · simp only [hc] at h
        obtain ⟨vi, hvi, h⟩ := bind_some_elim h
        obtain ⟨vr, hvr, h⟩ := bind_some_elim h
        simp only [pure, Option.some.injEq] at h
        subst h
        exact ⟨mcolP_dElem (hp _ _ hvi), hp _ _ hvr⟩
      · simp only [Bool.not_eq_true] at hc
        simp only [hc] at h
        obtain ⟨vi, hvi, h⟩ := bind_some_elim h
        obtain ⟨vr, hvr, h⟩ := bind_some_elim h
        simp only [pure, Option.some.injEq] at h
        subst h
        exact ⟨mcolP_run _ _, mcolForestP_append (hp _ _ hvi) ⟨mcolP_run _ _, hp _ _ hvr⟩⟩
  | none =>
  simp only [h2] at h
  cases h3 : matrix_match? E with
  | some t =>
      obtain ⟨content, rest⟩ := t
      simp only [h3] at h
      obtain ⟨vm, hvm, h⟩ := bind_some_elim h
      obtain ⟨vr, hvr, h⟩ := bind_some_elim h
      simp only [pure, Option.some.injEq] at h
      subst h
      exact ⟨mcolP_dElem ⟨mcolP_mElem (parseRows_mcol hp hvm), trivial⟩, hp _ _ hvr⟩
  | none =>
  simp only [h3] at h
  cases h4 : cases_match? E with
  | some t =>
      obtain ⟨content, rest⟩ := t
      simp only [h4] at h
      obtain ⟨vb, hvb, h⟩ := bind_some_elim h
      obtain ⟨vr, hvr, h⟩ := bind_some_elim h
      simp only [pure, Option.some.injEq] at h
      subst h
      exact ⟨mcolP_dElem (parseCasesAll_mcol hp hvb), hp _ _ hvr⟩
  | none =>
  simp only [h4] at h
  cases h5 : frac_match? E with
  | some t =>
      obtain ⟨g1, g2, rest⟩ := t
      simp only [h5] at h
      obtain ⟨vn, hvn, h⟩ := bind_some_elim h
      obtain ⟨vd, hvd, h⟩ := bind_some_elim h
      obtain ⟨vr, hvr, h⟩ := bind_some_elim h
      simp only [pure, Option.some.injEq] at h
      subst h
      exact ⟨mcolP_fElem (hp _ _ hvn) (hp _ _ hvd), mcolP_ctrl, hp _ _ hvr⟩
  | none =>
  simp only [h5] at h
  cases h6 : combined_match? E with
  | some t =>
      obtain ⟨b, sb, sp, rest⟩ := t
      simp only [h6] at h
      obtain ⟨vr, hvr, h⟩ := bind_some_elim h
      simp only [pure, Option.some.injEq] at h
      subst h
      exact ⟨mcolP_sSubSup _ _ _, hp _ _ hvr⟩
  | none =>
  simp only [h6] at h
  cases h7 : sub_match? E with
  | some t =>
      obtain ⟨b, sb, rest⟩ := t
      simp only [h7] at h
      obtain ⟨vr, hvr, h⟩ := bind_some_elim h
      simp only [pure, Option.some.injEq] at h
      subst h
      exact ⟨mcolP_sSub _ _, hp _ _ hvr⟩
  | none =>
  simp only [h7] at h
  cases h8 : sup_match? E with
  | some t =>
      obtain ⟨b, sp, rest⟩ := t
      simp only [h8] at h
      obtain ⟨vr, hvr, h⟩ := bind_some_elim h
      simp only [pure, Option.some.injEq] at h
      subst h
      exact ⟨mcolP_sSup _ _, hp _ _ hvr⟩
  | none =>
  simp only [h8] at h
  cases h9 : macroName? E with
  | some t =>
      obtain ⟨nm, rest⟩ := t
      simp only [h9] at h
      cases hg : greekLookup (String.mk nm) with
      | some g =>
          simp only [hg] at h
          obtain ⟨vr, hvr, h⟩ := bind_some_elim h
          simp only [pure, Option.some.injEq] at h
          subst h
          exact ⟨mcolP_run _ _, hp _ _ hvr⟩
      | none =>
          simp only [hg] at h
          exact parseTail_mcol hp h
  | none =>
  simp only [h9] at h
  exact parseTail_mcol hp h

theorem parse_exprF_mcol :
    ∀ {n : Nat} {s : List Char} {r : List Xml},
      parse_exprF n s = some r → mcolForestP r := by
  intro n
  induction n with
  | zero => intro s r h; simp [parse_exprF] at h
  | succ n ih =>
      intro s r h
      exact parseStep_mcol (fun t rt hrt => ih hrt) h

/-! ## Position lemmas for delimiter capture -/

theorem splitFirst?_append_first {c : Char} :
    ∀ {a : List Char} (b : List Char), ¬ c ∈ a →
      splitFirst? c (a ++ c :: b) = some (a, b) := by
  intro a
  induction a with
  | nil =>
      intro b _
      show (if c = c then some ([], b)
            else (splitFirst? c b).map (fun p => (c :: p.1, p.2))) = some ([], b)
      rw [if_pos rfl]
  | cons x xs ih =>
      intro b hnc
      have hx : ¬ x = c := fun he => hnc (by rw [he]; exact List.mem_cons_self _ _)
      have hxs : ¬ c ∈ xs := fun hm => hnc (List.mem_cons.mpr (Or.inr hm))
      show (if x = c then some ([], xs ++ c :: b)
            else (splitFirst? c (xs ++ c :: b)).map (fun p => (x :: p.1, p.2)))
          = some (x :: xs, b)
      rw [if_neg hx, ih b hxs]
      rfl

theorem takeWhile_append_stop {c : Char} :
    ∀ {pre : List Char} (post : List Char), ¬ c ∈ pre →
      (pre ++ c :: post).takeWhile (fun x => x ≠ c) = pre := by
  intro pre
  induction pre with
  | nil =>
      intro post _
      simp [List.takeWhile]
  | cons x xs ih =>
      intro post hnc
      have hx : ¬ x = c := fun he => hnc (by rw [he]; exact List.mem_cons_self _ _)
      have hxs : ¬ c ∈ xs := fun hm => hnc (List.mem_cons.mpr (Or.inr hm))
      rw [List.cons_append, List.takeWhile_cons_of_pos (by simpa using hx), ih post hxs]

/-! ## Claim theorems -/

/-- Claim C1 (counterexample): parsing the input `"cos(x+1)"` (without a
backslash) does NOT emit a `cos` run followed by a `Delimited` group: recognizer
1's pattern requires a leading backslash before the function name, so the input
is handled by the alphanumeric-run recognizer (one single run `"cos"`) followed
by the flattened-parenthesis path, and the output contains no `m:d` node at all. -/
theorem C1_counterexample :
    parse_expr ("cos(x+1)".toList) =
      [math_run "cos" "default", math_run "(" "default", math_run "x" "default",
       math_run "+" "default", math_run "1" "default", math_run ")" "default"]
    ∧ (parse_expr ("cos(x+1)".toList)).countP isD = 0 :=
  ⟨rfl, rfl⟩

/-- Claim C1 (amended): parsing `"\cos(x+1)"` (with the backslash that
recognizer 1's pattern `\\(cos|sin|tan|log|ln|exp)\s*\(([^)]+)\)` demands)
emits a literal `cos` run followed by a `Delimited('(',')')` group wrapping
the recursively parsed argument `x+1`; the backslash-free `"cos(x+1)"`
instead produces one literal run `"cos"` (not three character runs) followed
by a flattened literal parenthesis sequence. -/
theorem C1_function_call :
    parse_expr ("\\cos(x+1)".toList) =
      [math_run "cos" "default",
       dElem "(" ")" [math_run "x" "default", math_run "+" "default", math_run "1" "default"]] :=
  rfl

/-- Claim C2: the parser is total — for every input and any fuel exceeding the
input length, the fuel-indexed parser succeeds (never raises, never loops:
every recursive call gets a strictly shorter string), and its value is the
total function `parse_expr`. -/
theorem C2_parse_total (expr : List Char) (n : Nat) (h : expr.length < n) :
    (parse_exprF n expr).isSome = true ∧ parse_exprF n expr = some (parse_expr expr) :=
  ⟨parse_exprF_isSome n expr h, parse_exprF_complete h⟩

theorem C2_parse_total_witness :
    ("\\frac{1}{2}".toList.length < 12 ∧
      ((parse_exprF 12 ("\\frac{1}{2}".toList)).isSome = true ∧
        parse_exprF 12 ("\\frac{1}{2}".toList) = some (parse_expr ("\\frac{1}{2}".toList)))) :=
  ⟨by decide, C2_parse_total ("\\frac{1}{2}".toList) 12 (by decide)⟩

/-- Claim C3 (counterexample): the Fraction node emitted for `"\frac{1}{2}"`
does NOT carry the control-properties marker as its own last child (its last
child is `m:den`; the marker is appended to the parent as the sibling right
after the fraction), and the Matrix node emitted for
`"\begin{bmatrix}a\end{bmatrix}"` ends with its last row, not with a marker. -/
theorem C3_counterexample :
    parse_expr ("\\frac{1}{2}".toList) =
      [fElem [math_run "1" "default"] [math_run "2" "default"], ctrl_pr]
    ∧ ownLastIsCtrl (fElem [math_run "1" "default"] [math_run "2" "default"]) = false
    ∧ isFrac (fElem [math_run "1" "default"] [math_run "2" "default"]) = true
    ∧ parse_expr ("\\begin{bmatrix}a\\end{bmatrix}".toList) =
      [dElem "[" "]" [mElem [mrElem [eElem [math_run "a" "default"]]]]]
    ∧ ownLastIsCtrl (mElem [mrElem [eElem [math_run "a" "default"]]]) = false :=
  ⟨rfl, rfl, rfl, rfl, rfl⟩

/-- Claim C3 (amended): in every output of the parser, every composite node
except Fraction and Matrix (that is: every Delimited, Sub, Sup, SubSup node,
every argument slot `m:e`/`m:sub`/`m:sup`/`m:num`/`m:den` — matrix cells
included — and every properties child) has the control-properties marker as
its own last child; every Fraction node is immediately followed by a marker
appended to its parent; the Matrix node itself ends with its last row while
its properties child `m:mPr` ends with a marker. -/
theorem C3_marker_discipline (s : List Char) : markerForest (parse_expr s) = true := by
  unfold parse_expr
  cases h : parse_exprF (s.length + 1) s with
  | none => rfl
  | some r => exact parse_exprF_marker h

/-- Claim C5: `convert` strips at most one enclosing `$$...$$`/`$...$` pair;
empty input yields the absent result (`None`), while `"$$"` and `"$$ $$"`
yield an empty equation with zero emitted nodes, and the two outcomes are
distinguishable by the caller. -/
theorem C5_convert_empty :
    convert "" = none ∧ convert "$$" = some [] ∧ convert "$$ $$" = some []
    ∧ (none : Option (List Xml)) ≠ some [] :=
  ⟨rfl, rfl, rfl, by simp⟩

/-- Claim C7: the glyph-resolution rule used for every base/subscript/
superscript capture of recognizers 6-8: a capture that exactly matches a
Greek-table entry becomes a run with the mapped glyph and the `eastAsia`
font hint, any other capture becomes a run with the literal text and the
`default` hint; in particular `"\omega_e^*"` parses to the SubSup node with
base `ω` (east-asian hint), subscript `e` and superscript `*` (default hint). -/
theorem C7_glyph_resolution :
    (∀ s g : String, greekLookup s = some g → resolve_run s = math_run g "eastAsia")
    ∧ (∀ s : String, greekLookup s = none → resolve_run s = math_run s "default")
    ∧ parse_expr ("\\omega_e^*".toList) = [sSubSupElem "omega" "e" "*"]
    ∧ sSubSupElem "omega" "e" "*" =
        .elem "m:sSubSup" [] none
          [.elem "m:sSubSupPr" [] none [ctrl_pr],
           .elem "m:e" [] none [math_run "ω" "eastAsia", ctrl_pr],
           .elem "m:sub" [] none [math_run "e" "default", ctrl_pr],
           .elem "m:sup" [] none [math_run "*" "default", ctrl_pr], ctrl_pr] := by
  refine ⟨?_, ?_, rfl, rfl⟩
  · intro s g h
    unfold resolve_run
    rw [h]
  · intro s h
    unfold resolve_run
    rw [h]

theorem C7_glyph_resolution_witness :
    greekLookup "omega" = some "ω" ∧ resolve_run "omega" = math_run "ω" "eastAsia"
    ∧ greekLookup "q" = none ∧ resolve_run "q" = math_run "q" "default" :=
  ⟨rfl, C7_glyph_resolution.1 "omega" "ω" rfl, rfl, C7_glyph_resolution.2.1 "q" rfl⟩

/-- Claim C8: `"\begin{bmatrix}a&b\\c&d\end{bmatrix}"` parses to a
`Delimited('[',']')` wrapping a Matrix whose rows are `[[a,b],[c,d]]` in
row-major order (rows split on `\\`, cells split on `&`); and in every parser
output, every Matrix node carries exactly the fixed properties element —
one column definition (`count`=1), center-justified — regardless of the true
column count. -/
theorem C8_bmatrix :
    parse_expr ("\\begin{bmatrix}a&b\\\\c&d\\end{bmatrix}".toList) =
      [dElem "[" "]"
        [mElem
          [mrElem [eElem [math_run "a" "default"], eElem [math_run "b" "default"]],
           mrElem [eElem [math_run "c" "default"], eElem [math_run "d" "default"]]]]]
    ∧ ∀ s : List Char, mcolForestP (parse_expr s) := by
  constructor
  · rfl
  · intro s
    unfold parse_expr
    cases h : parse_exprF (s.length + 1) s with
    | none => trivial
    | some r => exact parse_exprF_mcol h

/-- Claim C10: the bare-parenthesis recognizer captures only up to the FIRST
closing parenthesis, not the balanced one; consequently `"((\alpha))"` yields
a `Delimited('(',')')` whose inner sequence is the literal `(` run followed
by the `α` run, with the final `)` emitted as a sibling after the group. -/
theorem C10_first_paren (a b : List Char) (hne : a ≠ []) (hnc : ¬ ')' ∈ a) :
    paren_match? ('(' :: (a ++ ')' :: b)) = some (a, b)
    ∧ parse_expr ("((\\alpha))".toList) =
      [dElem "(" ")" [math_run "(" "default", math_run "α" "eastAsia"],
       math_run ")" "default"] := by
  constructor
  · simp only [paren_match?, splitFirst?_append_first b hnc, if_neg hne]
    simp
  · rfl

theorem C10_first_paren_witness :
    paren_match? ('(' :: (['x'] ++ ')' :: [])) = some (['x'], [])
    ∧ parse_expr ("((\\alpha))".toList) =
      [dElem "(" ")" [math_run "(" "default", math_run "α" "eastAsia"],
       math_run ")" "default"] :=
  C10_first_paren ['x'] [] (by decide) (by decide)

/-- Claim C6: for an input beginning with a bare parenthesized group, the
parser wraps the recursively parsed inner text in a `Delimited('(',')')` node
when the captured inner text contains the fraction marker or any backslash,
and otherwise flattens it between two literal parenthesis runs (no wrapper
node), in both cases continuing with the rest of the input. -/
theorem C6_paren_asymmetry (inner rest : List Char)
    (hne : inner ≠ []) (hnc : ¬ ')' ∈ inner)
    (hstrip : pyStrip ('(' :: (inner ++ ')' :: rest)) = '(' :: (inner ++ ')' :: rest)) :
    parse_expr ('(' :: (inner ++ ')' :: rest)) =
      if containsSub ("\\frac".toList) inner || inner.contains '\\' then
        dElem "(" ")" (parse_expr inner) :: parse_expr rest
      else
        math_run "(" "default" ::
          (parse_expr inner ++ (math_run ")" "default" :: parse_expr rest)) := by
  have hlen : ('(' :: (inner ++ ')' :: rest)).length = inner.length + rest.length + 2 := by
    simp only [List.length_cons, List.length_append]
    omega
  have hi : inner.length < ('(' :: (inner ++ ')' :: rest)).length := by omega
  have hr : rest.length < ('(' :: (inner ++ ')' :: rest)).length := by omega
  have hfp : func_paren_match? ('(' :: (inner ++ ')' :: rest)) = none := rfl
  have hpm : paren_match? ('(' :: (inner ++ ')' :: rest)) = some (inner, rest) := by
    simp only [paren_match?, splitFirst?_append_first rest hnc, if_neg hne]
    simp
  have h1 := parse_exprF_complete hi
  have h2 := parse_exprF_complete hr
  show (parseStep (parse_exprF ('(' :: (inner ++ ')' :: rest)).length)
          ('(' :: (inner ++ ')' :: rest))).getD [] = _
  simp only [parseStep, hstrip, if_neg (List.cons_ne_nil '(' (inner ++ ')' :: rest)), hfp, hpm]
  by_cases hc : (containsSub ("\\frac".toList) inner || inner.contains '\\') = true
  · rw [if_pos hc]
    rw [h1, h2]
    rw [if_pos hc]
    rfl
  · rw [if_neg hc]
    rw [h1, h2]
    rw [if_neg hc]
    rfl

theorem C6_paren_asymmetry_witness :
    parse_expr ('(' :: (('\\' :: 'a' :: 'l' :: 'p' :: 'h' :: 'a' :: []) ++ ')' :: [])) =
      if containsSub ("\\frac".toList) ('\\' :: 'a' :: 'l' :: 'p' :: 'h' :: 'a' :: [])
          || ('\\' :: 'a' :: 'l' :: 'p' :: 'h' :: 'a' :: []).contains '\\' then
        dElem "(" ")" (parse_expr ('\\' :: 'a' :: 'l' :: 'p' :: 'h' :: 'a' :: []))
          :: parse_expr []
      else
        math_run "(" "default" ::
          (parse_expr ('\\' :: 'a' :: 'l' :: 'p' :: 'h' :: 'a' :: []) ++
            (math_run ")" "default" :: parse_expr [])) :=
  C6_paren_asymmetry ('\\' :: 'a' :: 'l' :: 'p' :: 'h' :: 'a' :: []) []
    (by decide) (by decide) (by decide)

theorem parseCasesTail_eq_T {n : Nat} :
    ∀ {rows : List (List Char)}, (∀ r ∈ rows, (caseRowContent r).length < n) →
      parseCasesTail (parse_exprF n) rows = some (casesTailT rows) := by
  intro rows
  induction rows with
  | nil => intro _; rfl
  | cons r rs ih =>
      intro h
      have h1 : parse_exprF n (caseRowContent r) = some (parse_expr (caseRowContent r)) :=
        parse_exprF_complete (h r (List.mem_cons_self _ _))
      have h2 := ih (fun x hx => h x (List.mem_cons.mpr (Or.inr hx)))
      simp only [parseCasesTail, casesTailT, h1, h2]
      rfl

theorem parseCasesAll_eq_T {n : Nat} :
    ∀ {rows : List (List Char)}, (∀ r ∈ rows, (caseRowContent r).length < n) →
      parseCasesAll (parse_exprF n) rows = some (casesBodyT rows) := by
  intro rows
  cases rows with
  | nil => intro _; rfl
  | cons r rs =>
      intro h
      have h1 : parse_exprF n (caseRowContent r) = some (parse_expr (caseRowContent r)) :=
        parse_exprF_complete (h r (List.mem_cons_self _ _))
      have h2 := parseCasesTail_eq_T (fun x hx => h x (List.mem_cons.mpr (Or.inr hx)))
      simp only [parseCasesAll, casesBodyT, h1, h2]
      rfl

/-- Claim C9: every `cases` environment is emitted as a `Delimited` node with
open glyph `{` and an empty close glyph, wrapping one inner sequence in which,
for each row, only the (stripped) portion before the first `&` column
separator is recursively parsed; everything after the separator is silently
discarded and parsing continues with the input after the environment. -/
theorem C9_cases_truncation (expr content rest pre post : List Char)
    (hm : cases_match? expr = some (content, rest))
    (hstrip : pyStrip expr = expr)
    (hpre : ¬ '\x26' ∈ pre) :
    parse_expr expr = dElem "\x7b" "" (casesBodyT (envRows content)) :: parse_expr rest
    ∧ caseRowContent (pre ++ '\x26' :: post) = pyStrip pre := by
  constructor
  case right =>
      unfold caseRowContent
      have hc : (pre ++ '\x26' :: post).contains '\x26' = true := by
        show List.elem '\x26' (pre ++ '\x26' :: post) = true
        exact List.elem_eq_true_of_mem (by simp)
      rw [if_pos hc, takeWhile_append_stop post hpre]
  case left =>
      unfold cases_match? at hm
      by_cases hp : ("\\begin{cases}".toList).isPrefixOf expr
      case neg => rw [if_neg hp] at hm; simp at hm
      rw [if_pos hp] at hm
      obtain ⟨t, ht⟩ := List.isPrefixOf_iff_prefix.mp hp
      have hdrop : expr.drop ("\\begin{cases}".toList).length = t := by
        rw [← ht, List.drop_left]
      rw [hdrop] at hm
      subst ht
      have hcm : cases_match? ("\\begin{cases}".toList ++ t) = some (content, rest) := by
        unfold cases_match?
        rw [if_pos (List.isPrefixOf_iff_prefix.mpr ⟨t, rfl⟩), List.drop_left]
        exact hm
      have hb := cases_match?_len hcm
      have hfp : func_paren_match? ("\\begin{cases}".toList ++ t) = none := rfl
      have hpm : paren_match? ("\\begin{cases}".toList ++ t) = none := rfl
      have hmx : matrix_match? ("\\begin{cases}".toList ++ t) = none := rfl
      have hne : ("\\begin{cases}".toList ++ t) ≠ [] := by simp
      have hrl : rest.length < ("\\begin{cases}".toList ++ t).length := hb.2
      have hrows : ∀ r ∈ envRows content,
          (caseRowContent r).length < ("\\begin{cases}".toList ++ t).length := by
        intro r hr
        have := caseRowContent_len r
        have := envRows_mem_len hr
        have := hb.1
        omega
      have hbody := parseCasesAll_eq_T hrows
      have hrest := parse_exprF_complete hrl
      show (parseStep (parse_exprF ("\\begin{cases}".toList ++ t).length)
              ("\\begin{cases}".toList ++ t)).getD [] = _
      simp only [parseStep, hstrip, if_neg hne, hfp, hpm, hmx, hcm]
      rw [hbody, hrest]
      rfl

theorem C9_cases_truncation_witness :
    parse_expr ("\\begin{cases}x&a\\\\y\\end{cases}".toList) =
      dElem "\x7b" "" (casesBodyT (envRows ("x&a\\\\y".toList))) :: parse_expr []
    ∧ caseRowContent (['x'] ++ '\x26' :: ['a']) = pyStrip ['x'] :=
  C9_cases_truncation ("\\begin{cases}x&a\\\\y\\end{cases}".toList)
    ("x&a\\\\y".toList) [] ['x'] ['a'] (by decide) (by decide) (by decide)

/-! ## Fall-through of unmapped macro names -/

theorem alpha_not_space {c : Char} (h : c.isAlpha = true) : pyIsSpace c = false := by
  cases hs : pyIsSpace c
  · rfl
  · exfalso
    simp only [pyIsSpace, Bool.or_eq_true, decide_eq_true_eq] at hs
    rcases hs with ((((h1 | h1) | h1) | h1) | h1) | h1 <;>
      (subst h1; exact absurd h (by decide))

theorem alpha_ne {c d : Char} (h : c.isAlpha = true) (hd : d.isAlpha = false) : ¬ c = d := by
  intro he
  subst he
  rw [h] at hd
  exact absurd hd (by decide)

theorem dropWhile_of_all_neg {α : Type} {p : α → Bool} :
    ∀ {l : List α}, (∀ c ∈ l, p c = false) → l.dropWhile p = l := by
  intro l
  cases l with
  | nil => intro _; rfl
  | cons x xs =>
      intro h
      refine List.dropWhile_cons_of_neg ?_
      rw [h x (List.mem_cons_self _ _)]
      exact Bool.false_ne_true

theorem takeWhile_of_all {α : Type} {p : α → Bool} :
    ∀ {l : List α}, (∀ c ∈ l, p c = true) → l.takeWhile p = l := by
  intro l
  induction l with
  | nil => intro _; rfl
  | cons x xs ih =>
      intro h
      rw [List.takeWhile_cons_of_pos (h x (List.mem_cons_self _ _))]
      rw [ih (fun c hc => h c (List.mem_cons.mpr (Or.inr hc)))]

theorem dropWhile_of_all {α : Type} {p : α → Bool} :
    ∀ {l : List α}, (∀ c ∈ l, p c = true) → l.dropWhile p = [] := by
  intro l
  induction l with
  | nil => intro _; rfl
  | cons x xs ih =>
      intro h
      rw [List.dropWhile_cons_of_pos (h x (List.mem_cons_self _ _))]
      exact ih (fun c hc => h c (List.mem_cons.mpr (Or.inr hc)))

theorem pyStrip_of_no_space {l : List Char} (h : ∀ c ∈ l, pyIsSpace c = false) :
    pyStrip l = l := by
  have h1 : l.dropWhile pyIsSpace = l := dropWhile_of_all_neg h
  have h2 : l.reverse.dropWhile pyIsSpace = l.reverse := by
    refine dropWhile_of_all_neg ?_
    intro c hc
    exact h c (List.mem_reverse.mp hc)
  unfold pyStrip
  rw [h1, h2, List.reverse_reverse]

theorem macroName?_all {name : List Char} (hne : name ≠ [])
    (hall : ∀ c ∈ name, c.isAlpha = true) :
    macroName? ('\\' :: name) = some (name, []) := by
  simp only [macroName?]
  rw [takeWhile_of_all hall, dropWhile_of_all hall]
  simp [hne]

theorem func_paren_none {name : List Char} (hall : ∀ c ∈ name, c.isAlpha = true) :
    func_paren_match? ('\\' :: name) = none := by
  simp only [func_paren_match?]
  cases hf : funcNames.find? (fun n => n.toList.isPrefixOf name) with
  | none => simp
  | some nm =>
      have halld : ∀ c ∈ name.drop nm.length, pyIsSpace c = false := by
        intro c hc
        exact alpha_not_space (hall c (List.drop_subset _ _ hc))
      cases hd : name.drop nm.length with
      | nil => simp [hd]
      | cons y ys =>
          rw [hd] at halld
          have hy : y.isAlpha = true := by
            have hmem : y ∈ List.drop nm.length name := by
              rw [hd]
              exact List.mem_cons_self _ _
            exact hall y (List.drop_subset _ _ hmem)
          have hyp : ¬ y = '(' := alpha_ne hy (by decide)
          simp [hd, dropWhile_of_all_neg halld, hyp]

theorem prefix_mem_contra {pre name : List Char} {d : Char}
    (hall : ∀ c ∈ name, c.isAlpha = true) (hd : d.isAlpha = false)
    (hp : pre.isPrefixOf name = true) (hmem : d ∈ pre) : False := by
  obtain ⟨t, ht⟩ := List.isPrefixOf_iff_prefix.mp hp
  have : d ∈ name := by
    rw [← ht]
    exact List.mem_append.mpr (Or.inl hmem)
  have ha := hall d this
  rw [ha] at hd
  exact absurd hd (by decide)

theorem matrix_none {name : List Char} (hall : ∀ c ∈ name, c.isAlpha = true) :
    matrix_match? ('\\' :: name) = none := by
  unfold matrix_match?
  by_cases hp : ("\\begin{bmatrix}".toList).isPrefixOf ('\\' :: name)
  · exfalso
    obtain ⟨t, ht⟩ := List.isPrefixOf_iff_prefix.mp hp
    have hmem : '{' ∈ '\\' :: name := by
      rw [← ht]
      refine List.mem_append.mpr (Or.inl ?_)
      decide
    rcases List.mem_cons.mp hmem with h1 | h1
    · exact absurd h1.symm (by decide)
    · have := hall _ h1
      exact absurd this (by decide)
  · rw [if_neg hp]

theorem cases_none {name : List Char} (hall : ∀ c ∈ name, c.isAlpha = true) :
    cases_match? ('\\' :: name) = none := by
  unfold cases_match?
  by_cases hp : ("\\begin{cases}".toList).isPrefixOf ('\\' :: name)
  · exfalso
    obtain ⟨t, ht⟩ := List.isPrefixOf_iff_prefix.mp hp
    have hmem : '{' ∈ '\\' :: name := by
      rw [← ht]
      refine List.mem_append.mpr (Or.inl ?_)
      decide
    rcases List.mem_cons.mp hmem with h1 | h1
    · exact absurd h1.symm (by decide)
    · have := hall _ h1
      exact absurd this (by decide)
  · rw [if_neg hp]

theorem frac_none {name : List Char} (hall : ∀ c ∈ name, c.isAlpha = true) :
    frac_match? ('\\' :: name) = none := by
  unfold frac_match?
  by_cases hp : ("\\frac".toList ++ ['{']).isPrefixOf ('\\' :: name)
  · exfalso
    obtain ⟨t, ht⟩ := List.isPrefixOf_iff_prefix.mp hp
    have hmem : '{' ∈ '\\' :: name := by
      rw [← ht]
      refine List.mem_append.mpr (Or.inl ?_)
      decide
    rcases List.mem_cons.mp hmem with h1 | h1
    · exact absurd h1.symm (by decide)
    · have := hall _ h1
      exact absurd this (by decide)
  · rw [if_neg hp]

theorem combined_none {name : List Char} (hne : name ≠ [])
    (hall : ∀ c ∈ name, c.isAlpha = true) :
    combined_match? ('\\' :: name) = none := by
  have hm := macroName?_all hne hall
  unfold combined_match? cp1 cp2 cp3 cp4 cp5 cp6
  simp [hm, expectChar, alnumChar?]

theorem sub_none {name : List Char} (hne : name ≠ [])
    (hall : ∀ c ∈ name, c.isAlpha = true) :
    sub_match? ('\\' :: name) = none := by
  have hm := macroName?_all hne hall
  unfold sub_match? sp1 sp2 sp3 sp4 sp5
  simp [hm, expectChar, alnumChar?]

theorem sup_none {name : List Char} (hne : name ≠ [])
    (hall : ∀ c ∈ name, c.isAlpha = true) :
    sup_match? ('\\' :: name) = none := by
  have hm := macroName?_all hne hall
  unfold sup_match? up1 up2 up3 up4
  simp [hm, expectChar, alnumChar?]

theorem expectChar_all_alpha {d : Char} {tl : List Char} (hd : d.isAlpha = false)
    (hall : ∀ x ∈ tl, x.isAlpha = true) : expectChar d tl = none := by
  cases tl with
  | nil => rfl
  | cons y ys =>
      simp only [expectChar]
      rw [if_neg (alpha_ne (hall y (List.mem_cons_self _ _)) hd)]

theorem macroName?_not_bs {c : Char} {tl : List Char} (h : ¬ c = '\\') :
    macroName? (c :: tl) = none := by
  simp only [macroName?]
  rw [if_neg h]

theorem combined_none_alpha {c : Char} {tl : List Char} (hc : c.isAlpha = true)
    (hall : ∀ x ∈ tl, x.isAlpha = true) :
    combined_match? (c :: tl) = none := by
  have hm := @macroName?_not_bs c tl (alpha_ne hc (by decide))
  have he := expectChar_all_alpha (d := '_') (by decide) hall
  have han : c.isAlphanum = true := by simp [Char.isAlphanum, hc]
  unfold combined_match? cp1 cp2 cp3 cp4 cp5 cp6
  simp [hm, alnumChar?, han, he]

theorem sub_none_alpha {c : Char} {tl : List Char} (hc : c.isAlpha = true)
    (hall : ∀ x ∈ tl, x.isAlpha = true) :
    sub_match? (c :: tl) = none := by
  have hm := @macroName?_not_bs c tl (alpha_ne hc (by decide))
  have he := expectChar_all_alpha (d := '_') (by decide) hall
  have han : c.isAlphanum = true := by simp [Char.isAlphanum, hc]
  unfold sub_match? sp1 sp2 sp3 sp4 sp5
  simp [hm, alnumChar?, han, he]

theorem sup_none_alpha {c : Char} {tl : List Char} (hc : c.isAlpha = true)
    (hall : ∀ x ∈ tl, x.isAlpha = true) :
    sup_match? (c :: tl) = none := by
  have hm := @macroName?_not_bs c tl (alpha_ne hc (by decide))
  have he := expectChar_all_alpha (d := '^') (by decide) hall
  have han : c.isAlphanum = true := by simp [Char.isAlphanum, hc]
  unfold sup_match? up1 up2 up3 up4
  simp [hm, alnumChar?, han, he]

theorem alpha_not_op {c : Char} (hc : c.isAlpha = true) : opChars.contains c = false := by
  cases hb : opChars.contains c
  · rfl
  · exfalso
    have hmem : c ∈ opChars := List.elem_iff.mp hb
    fin_cases hmem <;> exact absurd hc (by decide)

theorem parse_alpha_run {name : List Char} (hne : name ≠ [])
    (hall : ∀ c ∈ name, c.isAlpha = true) :
    parse_expr name = [math_run (String.mk name) "default"] := by
  cases name with
  | nil => exact absurd rfl hne
  | cons c tl =>
      have hc : c.isAlpha = true := hall c (List.mem_cons_self _ _)
      have htl : ∀ x ∈ tl, x.isAlpha = true := fun x hx => hall x (List.mem_cons.mpr (Or.inr hx))
      have hstrip : pyStrip (c :: tl) = c :: tl :=
        pyStrip_of_no_space (fun x hx => alpha_not_space (hall x hx))
      have hfp : func_paren_match? (c :: tl) = none := by
        simp only [func_paren_match?]
        rw [if_neg (alpha_ne hc (by decide))]
      have hpm : paren_match? (c :: tl) = none := by
        simp only [paren_match?]
        rw [if_neg (alpha_ne hc (by decide))]
      have hmx : matrix_match? (c :: tl) = none := by
        unfold matrix_match?
        by_cases hp : ("\\begin{bmatrix}".toList).isPrefixOf (c :: tl)
        · exfalso
          obtain ⟨t, ht⟩ := List.isPrefixOf_iff_prefix.mp hp
          have hh := congrArg List.head? ht
          rw [show List.head? ("\\begin{bmatrix}".toList ++ t) = some '\\' from rfl] at hh
          injection hh with hh
          exact absurd hh.symm (alpha_ne hc (by decide))
        · rw [if_neg hp]
      have hcs : cases_match? (c :: tl) = none := by
        unfold cases_match?
        by_cases hp : ("\\begin{cases}".toList).isPrefixOf (c :: tl)
        · exfalso
          obtain ⟨t, ht⟩ := List.isPrefixOf_iff_prefix.mp hp
          have hh := congrArg List.head? ht
          rw [show List.head? ("\\begin{cases}".toList ++ t) = some '\\' from rfl] at hh
          injection hh with hh
          exact absurd hh.symm (alpha_ne hc (by decide))
        · rw [if_neg hp]
      have hfr : frac_match? (c :: tl) = none := by
        unfold frac_match?
        by_cases hp : ("\\frac".toList ++ ['{']).isPrefixOf (c :: tl)
        · exfalso
          obtain ⟨t, ht⟩ := List.isPrefixOf_iff_prefix.mp hp
          have hh := congrArg List.head? ht
          rw [show List.head? (("\\frac".toList ++ ['{']) ++ t) = some '\\' from rfl] at hh
          injection hh with hh
          exact absurd hh.symm (alpha_ne hc (by decide))
        · rw [if_neg hp]
      have hcb := combined_none_alpha hc htl
      have hsb := sub_none_alpha hc htl
      have hsp := sup_none_alpha hc htl
      have hmn := @macroName?_not_bs c tl (alpha_ne hc (by decide))
      have hop := alpha_not_op hc
      have htx : txtChar c = true := by simp [txtChar, Char.isAlphanum, hc]
      have htw : (c :: tl).takeWhile txtChar = c :: tl :=
        takeWhile_of_all (fun x hx => by simp [txtChar, Char.isAlphanum, hall x hx])
      have hdw : (c :: tl).dropWhile txtChar = [] :=
        dropWhile_of_all (fun x hx => by simp [txtChar, Char.isAlphanum, hall x hx])
      have hnil : parse_exprF (c :: tl).length [] = some [] := rfl
      show (parseStep (parse_exprF (c :: tl).length) (c :: tl)).getD [] = _
      simp only [parseStep, hstrip, if_neg (List.cons_ne_nil c tl), hfp, hpm, hmx, hcs, hfr,
        hcb, hsb, hsp, hmn, parseTail, hop, htx, htw, hdw, hnil]
      simp

theorem parse_backslash_fall {name : List Char} (hne : name ≠ [])
    (hall : ∀ c ∈ name, c.isAlpha = true)
    (hg : greekLookup (String.mk name) = none) :
    parse_expr ('\\' :: name) = parse_expr name := by
  have hstrip : pyStrip ('\\' :: name) = '\\' :: name := by
    refine pyStrip_of_no_space ?_
    intro x hx
    rcases List.mem_cons.mp hx with h1 | h1
    · subst h1; rfl
    · exact alpha_not_space (hall x h1)
  have hfp := func_paren_none hall
  have hpm : paren_match? ('\\' :: name) = none := rfl
  have hmx := matrix_none hall
  have hcs := cases_none hall
  have hfr := frac_none hall
  have hcb := combined_none hne hall
  have hsb := sub_none hne hall
  have hsp := sup_none hne hall
  have hmac := macroName?_all hne hall
  have hrec : parse_exprF ('\\' :: name).length name = some (parse_expr name) :=
    parse_exprF_complete (by simp)
  have hop : opChars.contains '\\' = false := rfl
  have htx : txtChar '\\' = false := rfl
  show (parseStep (parse_exprF ('\\' :: name).length) ('\\' :: name)).getD [] = _
  simp only [parseStep, hstrip, if_neg (List.cons_ne_nil '\\' name), hfp, hpm, hmx, hcs, hfr,
    hcb, hsb, hsp, hmac, hg, parseTail, hop, htx, if_neg hne, hrec]
  simp

/-- Claim C4 (counterexample): the table's domain does NOT have 22 lowercase
names: it has 23 of them (all Greek lowercase letters except omicron), for a
total of 33 entries, so the claimed count "22 lowercase and 10 uppercase" is
off by one. -/
theorem C4_counterexample :
    ((greek_map.map Prod.fst).countP (fun s => s.toList.all Char.isLower)) = 23
    ∧ ¬ ((greek_map.map Prod.fst).countP (fun s => s.toList.all Char.isLower)) = 22
    ∧ greek_map.length = 33 :=
  ⟨by decide, by decide, by decide⟩

/-- Claim C4 (amended): the Greek symbol table is an exact, case-sensitive
mapping whose domain is exactly the 23 lowercase and 10 uppercase macro names
below, each mapped to a one-character glyph; a macro name is mapped iff it is
in that domain, and any all-letter macro name outside the domain falls through
to the literal-text recognizers: the backslash is dropped by the fallback
skip and the name itself is emitted as one literal alphanumeric run. -/
theorem C4_greek_table :
    greek_map.map Prod.fst =
      ["alpha", "beta", "gamma", "delta", "epsilon", "zeta", "eta", "theta",
       "iota", "kappa", "lambda", "mu", "nu", "xi", "pi", "rho", "sigma", "tau",
       "upsilon", "phi", "chi", "psi", "omega",
       "Gamma", "Delta", "Theta", "Lambda", "Xi", "Pi", "Sigma", "Phi", "Psi", "Omega"]
    ∧ ((greek_map.map Prod.fst).countP (fun s => s.toList.all Char.isLower)) = 23
    ∧ ((greek_map.map Prod.fst).countP
         (fun s => match s.toList with | c :: _ => c.isUpper | [] => false)) = 10
    ∧ greek_map.all (fun p => p.2.length == 1) = true
    ∧ (∀ s : String, (greekLookup s).isSome = true ↔ s ∈ greek_map.map Prod.fst)
    ∧ (∀ name : List Char, name ≠ [] → (∀ c ∈ name, c.isAlpha = true) →
         greekLookup (String.mk name) = none →
         parse_expr ('\\' :: name) = [math_run (String.mk name) "default"]
         ∧ parse_expr name = [math_run (String.mk name) "default"]) := by
  refine ⟨rfl, by decide, by decide, by decide, ?_, ?_⟩
  · intro s
    unfold greekLookup
    rw [Option.isSome_map']
    rw [List.find?_isSome]
    constructor
    · intro he
      obtain ⟨x, hxmem, hbeq⟩ := he
      refine List.mem_map.mpr ⟨x, hxmem, ?_⟩
      exact eq_of_beq hbeq
    · intro hm
      obtain ⟨x, hxmem, hfst⟩ := List.mem_map.mp hm
      refine ⟨x, hxmem, ?_⟩
      rw [hfst]
      exact beq_self_eq_true s
  · intro name h1 h2 h3
    have hrun := parse_alpha_run h1 h2
    exact ⟨(parse_backslash_fall h1 h2 h3).trans hrun, hrun⟩

theorem C4_greek_table_witness :
    ((greekLookup "alpha").isSome = true ↔ "alpha" ∈ greek_map.map Prod.fst)
    ∧ (parse_expr ('\\' :: ['f', 'o', 'o']) = [math_run (String.mk ['f', 'o', 'o']) "default"]
       ∧ parse_expr ['f', 'o', 'o'] = [math_run (String.mk ['f', 'o', 'o']) "default"]) :=
  ⟨C4_greek_table.2.2.2.2.1 "alpha",
   C4_greek_table.2.2.2.2.2 ['f', 'o', 'o'] (by decide) (by decide) (by decide)⟩
